import Mathlib

/-!
# xv6 multiprocessor discovery (`mp.c`)

A shallow embedding of `mp_scan`, `mp_search`, `mp_detect`, `mp_init`,
`mp_bcpu` and `mp_startthem` from `mp.c`, followed by theorems about them.

Modelling conventions
* Physical memory is a function from addresses to values; every read goes
  through `byteAt`, which truncates to a `uchar`.
* Pointers are natural-number addresses and `0` is the null pointer, as in C.
  The end pointer `addr+len` of `mp_scan` is a 32-bit value, reduced modulo
  `2^32`: a range that reaches the end of the address space has end pointer `0`.
  The cursors of the scanning and parsing loops are not reduced modulo `2^32`;
  the cursor of `mp_scan` would pass `2^32` only in a range whose end pointer
  lies in the last `sizeof(struct mp)` bytes of the address space, and `mp.c`
  builds no such range.  `mp_scan` with `len ≤ 0` runs no iteration; `mp.c`
  calls it with `len` 1024 and 0x10000 only.
* `uchar` accumulators are reduced modulo `256` after every addition.
* `cprintf` output is not part of the model.
* The record layouts, entry tags, `MPBP` and `NCPU` come from `mp.h` and
  `param.h`; the functions take them as a parameter `L : MpLayout`.
-/

namespace Mp

/-! ## Memory -/

/-- Physical memory: the value stored at each address. -/
abbrev Mem := Nat → Nat

/-- Read of one `uchar` at address `a`. -/
def byteAt (m : Mem) (a : Nat) : Nat := m a % 256

/-- Read of a little-endian `ushort` at address `a`. -/
def read16 (m : Mem) (a : Nat) : Nat := byteAt m a + 256 * byteAt m (a + 1)

/-- Read of a little-endian 32-bit word (a `uint` or a pointer) at address `a`. -/
def read32 (m : Mem) (a : Nat) : Nat :=
  byteAt m a + 256 * byteAt m (a + 1) + 65536 * byteAt m (a + 2) + 16777216 * byteAt m (a + 3)

/-- The `n` bytes stored from address `p` on. -/
def bytesAt (m : Mem) (p : Nat) : Nat → List Nat
  | 0 => []
  | n + 1 => byteAt m p :: bytesAt m (p + 1) n

/-- The string literal `"_MP_"` as bytes. -/
def sigMP : List Nat := [0x5F, 0x4D, 0x50, 0x5F]

/-- The string literal `"PCMP"` as bytes. -/
def sigPCMP : List Nat := [0x50, 0x43, 0x4D, 0x50]

/-- Library routine `memcmp(p, s, |s|)`: zero when the bytes at `p` equal `s`, otherwise the
difference of the first pair of bytes that differ. -/
def memcmp (m : Mem) (p : Nat) : List Nat → Int
  | [] => 0
  | c :: cs => if byteAt m p ≠ c then (byteAt m p : Int) - (c : Int) else memcmp m (p + 1) cs

/-- The loop `for(...) sum += *p++` over `n` bytes with a `uchar` accumulator `sum`. -/
def addBytes (m : Mem) : Nat → Nat → Nat → Nat
  | _, 0, sum => sum
  | p, n + 1, sum => addBytes m (p + 1) n ((sum + byteAt m p) % 256)

/-! ## Layout parameters (`mp.h`, `param.h`) -/

/-- Sizes, field offsets and constants declared in `mp.h` and `param.h`.  `sizeof` is positive
and the labels of a `switch` are pairwise different in every C program. -/
structure MpLayout where
  /-- The value `sizeof(struct mp)`. -/
  sizeofMp : Nat
  /-- Offset of `physaddr` (a 32-bit pointer) in `struct mp`. -/
  physaddrOff : Nat
  /-- Offset of `imcrp` in `struct mp`. -/
  imcrpOff : Nat
  /-- The value `sizeof(struct mpctb)`. -/
  sizeofMpctb : Nat
  /-- Offset of `length` (a `ushort`) in `struct mpctb`. -/
  lengthOff : Nat
  /-- Offset of `version` in `struct mpctb`. -/
  versionOff : Nat
  /-- Offset of `lapicaddr` (a 32-bit pointer) in `struct mpctb`. -/
  lapicaddrOff : Nat
  /-- The value `sizeof(struct mppe)`. -/
  sizeofMppe : Nat
  /-- Offset of `apicid` in `struct mppe`. -/
  apicidOff : Nat
  /-- Offset of `flags` in `struct mppe`. -/
  flagsOff : Nat
  /-- The value `sizeof(struct mpbe)`. -/
  sizeofMpbe : Nat
  /-- The value `sizeof(struct mpioapic)`. -/
  sizeofMpioapic : Nat
  /-- Offset of `apicno` in `struct mpioapic`. -/
  apicnoOff : Nat
  /-- The value `sizeof(struct mpie)`. -/
  sizeofMpie : Nat
  /-- Entry tag of a processor entry. -/
  MPPROCESSOR : Nat
  /-- Entry tag of a bus entry. -/
  MPBUS : Nat
  /-- Entry tag of an I/O APIC entry. -/
  MPIOAPIC : Nat
  /-- Entry tag of an I/O interrupt entry. -/
  MPIOINTR : Nat
  /-- Flag bit of a processor entry: bootstrap processor. -/
  MPBP : Nat
  /-- Number of elements of the array `cpus`. -/
  NCPU : Nat
  sizeofMp_pos : 0 < sizeofMp
  sizeofMppe_pos : 0 < sizeofMppe
  sizeofMpbe_pos : 0 < sizeofMpbe
  sizeofMpioapic_pos : 0 < sizeofMpioapic
  sizeofMpie_pos : 0 < sizeofMpie
  tags_nodup : [MPPROCESSOR, MPBUS, MPIOAPIC, MPIOINTR].Nodup

/-- The layout of the Intel MultiProcessor Specification 1.4 on a 32-bit x86, with `NCPU = 8`. -/
def stdLayout : MpLayout where
  sizeofMp := 16
  physaddrOff := 4
  imcrpOff := 12
  sizeofMpctb := 44
  lengthOff := 4
  versionOff := 6
  lapicaddrOff := 36
  sizeofMppe := 20
  apicidOff := 1
  flagsOff := 3
  sizeofMpbe := 8
  sizeofMpioapic := 8
  apicnoOff := 1
  sizeofMpie := 8
  MPPROCESSOR := 0
  MPBUS := 1
  MPIOAPIC := 2
  MPIOINTR := 3
  MPBP := 2
  NCPU := 8
  sizeofMp_pos := by decide
  sizeofMppe_pos := by decide
  sizeofMpbe_pos := by decide
  sizeofMpioapic_pos := by decide
  sizeofMpie_pos := by decide
  tags_nodup := by decide

/-! ## `mp_scan`, `mp_search`, `mp_detect` -/

/-- The `for` loop of `mp_scan` with end pointer `e` and cursor `p`.  The first argument bounds
the number of iterations; `mp_scan` passes `len`, which the loop never exhausts because each
iteration advances `p` by `sizeof(struct mp) > 0` and `e` is at most `addr + len`. -/
def mp_scan_loop (L : MpLayout) (m : Mem) (e : Int) : Nat → Nat → Nat
  | 0, _ => 0
  | fuel + 1, p =>
    if (p : Int) < e then
      if memcmp m p sigMP ≠ 0 then mp_scan_loop L m e fuel (p + L.sizeofMp)
      else if addBytes m p L.sizeofMp 0 = 0 then p
      else mp_scan_loop L m e fuel (p + L.sizeofMp)
    else 0

/-- Function `mp_scan(addr, len)`: the address of the first checksummed `"_MP_"` record found at
stride `sizeof(struct mp)` from `addr`, or `0`.  The end pointer `e = addr+len` is a 32-bit
pointer, so the sum is taken modulo `2^32`. -/
def mp_scan (L : MpLayout) (m : Mem) (addr : Nat) (len : Int) : Nat :=
  mp_scan_loop L m (((addr : Int) + len) % 2 ^ 32) len.toNat addr

/-- The 16-bit value `(bda[hi]<<8)|bda[lo]` read from the BIOS data area at `0x400`. -/
def bdaWord (m : Mem) (hi lo : Nat) : Nat :=
  (byteAt m (0x400 + hi) <<< 8) ||| byteAt m (0x400 + lo)

/-- Function `mp_search()`.  The `uint` product and the pointer `(uchar*)p-1024` are computed
modulo `2^32`. -/
def mp_search (L : MpLayout) (m : Mem) : Nat :=
  let p := bdaWord m 0x0F 0x0E
  if p ≠ 0 then
    let mp := mp_scan L m p 1024
    if mp ≠ 0 then mp else mp_scan L m 0xF0000 0x10000
  else
    let p := (bdaWord m 0x14 0x13 * 1024) % 2 ^ 32
    let mp := mp_scan L m ((p + 2 ^ 32 - 1024) % 2 ^ 32) 1024
    if mp ≠ 0 then mp else mp_scan L m 0xF0000 0x10000

/-- One element of `cpus`: the fields of `struct cpu` that are stored values. -/
structure Cpu where
  apicid : Nat
  booted : Nat
  deriving DecidableEq, Repr

/-- One access to an I/O port. -/
inductive PortOp where
  | outb (port val : Nat)
  | inb (port val : Nat)
  deriving DecidableEq, Repr

/-- The globals of `mp.c` and the port accesses performed so far.  `bcpu` is the index of the
element of `cpus` it points to, `none` for the null pointer. -/
structure Kernel where
  cpus : Nat → Cpu
  ncpu : Nat
  ioapic_id : Nat
  bcpu : Option Nat
  mp : Nat
  lapicaddr : Nat
  ports : List PortOp

/-- Function `mp_detect()`: the returned code and the globals after the assignment to `mp`. -/
def mp_detect (L : MpLayout) (m : Mem) (k : Kernel) : Nat × Kernel :=
  let k := { k with mp := mp_search L m }
  if k.mp = 0 ∨ read32 m (k.mp + L.physaddrOff) = 0 then (1, k)
  else
    let pcmp := read32 m (k.mp + L.physaddrOff)
    if memcmp m pcmp sigPCMP ≠ 0 then (2, k)
    else
      let length := read16 m (pcmp + L.lengthOff)
      let sum := addBytes m pcmp length 0
      if sum ≠ 0 ∨ (byteAt m (pcmp + L.versionOff) ≠ 1 ∧ byteAt m (pcmp + L.versionOff) ≠ 4) then
        (3, k)
      else (0, k)

/-! ## `mp_init`, `mp_bcpu` -/

/-- The store `cpus[i].apicid = v`. -/
def setApicid (cpus : Nat → Cpu) (i v : Nat) : Nat → Cpu :=
  fun j => if j = i then { cpus j with apicid := v } else cpus j

/-- The inner loop `while(p < e) p++` of the `default` branch. -/
def dump_rest (e : Nat) : Nat → Nat → Nat
  | 0, p => p
  | fuel + 1, p => if p < e then dump_rest e fuel (p + 1) else p

/-- One iteration of the `while(p < e)` loop of `mp_init` with the cursor at `p`: the `switch`
on the tag `*p`.  The result is the new cursor and the new globals; it is `none` when the
store `cpus[ncpu].apicid` falls outside the `NCPU` elements of `cpus`.  The `MPBUS` case looks
the bus name up in `buses` only to print its index, which changes no global. -/
def mp_entry (L : MpLayout) (m : Mem) (e p : Nat) (k : Kernel) : Option (Nat × Kernel) :=
  if byteAt m p = L.MPPROCESSOR then
    if k.ncpu < L.NCPU then
      let k1 := { k with cpus := setApicid k.cpus k.ncpu (byteAt m (p + L.apicidOff)) }
      let k2 := if byteAt m (p + L.flagsOff) &&& L.MPBP ≠ 0 then { k1 with bcpu := some k1.ncpu }
                else k1
      some (p + L.sizeofMppe, { k2 with ncpu := k2.ncpu + 1 })
    else none
  else if byteAt m p = L.MPBUS then some (p + L.sizeofMpbe, k)
  else if byteAt m p = L.MPIOAPIC then
    some (p + L.sizeofMpioapic, { k with ioapic_id := byteAt m (p + L.apicnoOff) })
  else if byteAt m p = L.MPIOINTR then some (p + L.sizeofMpie, k)
  else some (dump_rest e (e - p) p, k)

/-- The loop `while(p < e) { switch(*p) ... }` of `mp_init`.  The first argument bounds the
number of iterations. -/
def mp_parse_loop (L : MpLayout) (m : Mem) (e : Nat) : Nat → Nat → Kernel → Option (Nat × Kernel)
  | 0, p, k => some (p, k)
  | fuel + 1, p, k =>
    if p < e then
      match mp_entry L m e p k with
      | none => none
      | some (p1, k1) => mp_parse_loop L m e fuel p1 k1
    else some (p, k)

/-- The entry walk of `mp_init` from cursor `p` to end pointer `e`: final cursor and globals.
Each iteration advances the cursor by at least one byte, so `e - p` iterations are enough. -/
def mp_parse (L : MpLayout) (m : Mem) (e p : Nat) (k : Kernel) : Option (Nat × Kernel) :=
  mp_parse_loop L m e (e - p) p k

/-- The block `if (mp->imcrp) { outb; inb; outb }` of `mp_init`.  What port `port` returns after
the accesses `t` is `dev t port`. -/
def mp_imcr (L : MpLayout) (dev : List PortOp → Nat → Nat) (m : Mem) (k : Kernel) : Kernel :=
  if byteAt m (k.mp + L.imcrpOff) ≠ 0 then
    let t1 := k.ports ++ [PortOp.outb 0x22 0x70]
    let byte := dev t1 0x23 % 256
    let t2 := t1 ++ [PortOp.inb 0x23 byte]
    let byte := byte ||| 0x01
    { k with ports := t2 ++ [PortOp.outb 0x23 byte] }
  else k

/-- Function `mp_init()` run on memory `m` from globals `k`. -/
def mp_init (L : MpLayout) (dev : List PortOp → Nat → Nat) (m : Mem) (k : Kernel) :
    Option Kernel :=
  let k := { k with ncpu := 0 }
  let (r, k) := mp_detect L m k
  if r ≠ 0 then some k
  else
    let mpctb := read32 m (k.mp + L.physaddrOff)
    let k := { k with lapicaddr := read32 m (mpctb + L.lapicaddrOff) }
    let p := mpctb + L.sizeofMpctb
    let e := mpctb + read16 m (mpctb + L.lengthOff)
    match mp_parse L m e p k with
    | none => none
    | some (_, k) => some (mp_imcr L dev m k)

/-- Function `mp_bcpu()`: the index `bcpu - cpus`, defined when `bcpu` points into `cpus`. -/
def mp_bcpu (k : Kernel) : Option Nat := k.bcpu

/-! ## `mp_startthem` -/

/-- What `mp_startthem` uses from outside `mp.c`. -/
structure BootParams where
  /-- The value that `cpu()` returns on the processor running `mp_startthem`. -/
  me : Nat
  /-- The address of the array `cpus[c].mpstack`. -/
  mpstack : Nat → Nat
  /-- The constant `MPSTACK`. -/
  MPSTACK : Nat
  /-- The address of the function `mpmain`. -/
  mpmain : Nat
  /-- The address `_binary_bootother_start`. -/
  bootother_start : Nat
  /-- The value `_binary_bootother_size`. -/
  bootother_size : Nat

/-- The constant `APBOOTCODE`. -/
def APBOOTCODE : Nat := 0x7000

/-- The store `*(uint *)a = v`, little-endian. -/
def write32 (m : Mem) (a v : Nat) : Mem :=
  fun x =>
    if x = a then v % 256
    else if x = a + 1 then v / 256 % 256
    else if x = a + 2 then v / 65536 % 256
    else if x = a + 3 then v / 16777216 % 256
    else m x

/-- Library routine `memmove(dst, src, n)`. -/
def memmove (m : Mem) (dst src n : Nat) : Mem :=
  fun x => if dst ≤ x ∧ x < dst + n then m (src + (x - dst)) else m x

/-- One call `lapic_startap(apicid, addr)`, issued for descriptor `cpus[idx]`, together with the
two words found at `APBOOTCODE-4` and `APBOOTCODE-8` when the call is made. -/
structure Startap where
  idx : Nat
  apicid : Nat
  addr : Nat
  esp : Nat
  entry : Nat
  deriving DecidableEq, Repr

/-- Control points of `mp_startthem`: the head of the `for` loop with counter `c`, the loop
`while(cpus[c].booted == 0)`, and the return. -/
inductive Pc where
  | loop (c : Nat)
  | wait (c : Nat)
  | done
  deriving DecidableEq, Repr

/-- The machine while `mp_startthem` runs: control point, memory, globals, and the calls of
`lapic_startap` made so far. -/
structure BootState where
  pc : Pc
  mem : Mem
  k : Kernel
  sent : List Startap

/-- The state of `mp_startthem` after its `memmove`, at the head of the loop with `c = 0`. -/
def mp_startthem_init (B : BootParams) (m : Mem) (k : Kernel) : BootState :=
  { pc := .loop 0, mem := memmove m APBOOTCODE B.bootother_start B.bootother_size, k := k,
    sent := [] }

/-- One step of the processor that runs `mp_startthem`: at the loop head, the test `c < ncpu`,
the test `c == cpu()`, and for another descriptor the two stores and `lapic_startap`; in the
wait loop, one poll of `cpus[c].booted`. -/
def mp_startthem_step (B : BootParams) (s : BootState) : BootState :=
  match s.pc with
  | .loop c =>
    if c < s.k.ncpu then
      if c = B.me then { s with pc := .loop (c + 1) }
      else
        let m1 := write32 s.mem (APBOOTCODE - 4) ((B.mpstack c + B.MPSTACK) % 2 ^ 32)
        let m2 := write32 m1 (APBOOTCODE - 8) (B.mpmain % 2 ^ 32)
        { s with
            pc := .wait c
            mem := m2
            sent := s.sent ++ [{ idx := c, apicid := (s.k.cpus c).apicid, addr := APBOOTCODE,
                                 esp := read32 m2 (APBOOTCODE - 4),
                                 entry := read32 m2 (APBOOTCODE - 8) }] }
    else { s with pc := .done }
  | .wait c => if (s.k.cpus c).booted = 0 then s else { s with pc := .loop (c + 1) }
  | .done => s

/-- Processor `j` stores the non-zero value `v` in its own flag `cpus[j].booted`. -/
def remote_set (s : BootState) (j v : Nat) : BootState :=
  { s with k := { s.k with
      cpus := fun i => if i = j then { s.k.cpus i with booted := v } else s.k.cpus i } }

/-- One step of the system: a step of `mp_startthem`, or some other processor setting its own
`booted` flag to a non-zero value. -/
inductive Step (B : BootParams) : BootState → BootState → Prop where
  | ctrl (s : BootState) : Step B s (mp_startthem_step B s)
  | remote (s : BootState) (j v : Nat) (hv : v ≠ 0) : Step B s (remote_set s j v)

/-- The states that the system can be in while `mp_startthem` runs on memory `m`, globals `k`. -/
inductive Reachable (B : BootParams) (m : Mem) (k : Kernel) : BootState → Prop where
  | init : Reachable B m k (mp_startthem_init B m k)
  | step (s t : BootState) (hs : Reachable B m k s) (ht : Step B s t) : Reachable B m k t

/-- A step of the run in which a signalled processor acknowledges as soon as it is polled: in the
wait loop with the flag still zero, processor `c` sets `cpus[c].booted = 1`; otherwise
`mp_startthem` steps. -/
def acked_step (B : BootParams) (s : BootState) : BootState :=
  match s.pc with
  | .wait c => if (s.k.cpus c).booted = 0 then remote_set s c 1 else mp_startthem_step B s
  | _ => mp_startthem_step B s

/-- Function `mp_startthem()` run to its return against processors that acknowledge. -/
def mp_startthem (B : BootParams) (m : Mem) (k : Kernel) : BootState :=
  (acked_step B)^[3 * k.ncpu + 4] (mp_startthem_init B m k)

/-! ## Specification vocabulary -/

/-- A floating pointer record at `p`: it starts with `"_MP_"` and its `sizeof(struct mp)` bytes
sum to zero modulo `256`. -/
def validMp (L : MpLayout) (m : Mem) (p : Nat) : Prop :=
  bytesAt m p 4 = sigMP ∧ (bytesAt m p L.sizeofMp).sum % 256 = 0

instance (L : MpLayout) (m : Mem) (p : Nat) : Decidable (validMp L m p) := by
  unfold validMp; infer_instance

/-- The pointer `mp->physaddr` of the record that `mp_search` returns: the address of the
configuration table. -/
def tableAddr (L : MpLayout) (m : Mem) : Nat := read32 m (mp_search L m + L.physaddrOff)

/-- The `length` field of the configuration table: its declared length. -/
def tableLen (L : MpLayout) (m : Mem) : Nat := read16 m (tableAddr L m + L.lengthOff)


/-- An entry of the configuration table that the `switch` of `mp_init` has a case for, with the
fields that `mp_init` reads. -/
inductive Entry where
  | processor (apicid flags : Nat)
  | bus
  | ioapic (apicno : Nat)
  | iointr
  deriving DecidableEq, Repr

/-- The fixed size of an entry: the `sizeof` of its struct. -/
def Entry.size (L : MpLayout) : Entry → Nat
  | .processor _ _ => L.sizeofMppe
  | .bus => L.sizeofMpbe
  | .ioapic _ => L.sizeofMpioapic
  | .iointr => L.sizeofMpie

/-- Memory holds entry `x` at address `p`: its tag byte and the fields `mp_init` reads. -/
def Entry.holdsAt (L : MpLayout) (m : Mem) (p : Nat) : Entry → Prop
  | .processor a f =>
    byteAt m p = L.MPPROCESSOR ∧ byteAt m (p + L.apicidOff) = a ∧ byteAt m (p + L.flagsOff) = f
  | .bus => byteAt m p = L.MPBUS
  | .ioapic a => byteAt m p = L.MPIOAPIC ∧ byteAt m (p + L.apicnoOff) = a
  | .iointr => byteAt m p = L.MPIOINTR

instance (L : MpLayout) (m : Mem) (p : Nat) (x : Entry) : Decidable (x.holdsAt L m p) := by
  cases x <;> unfold Entry.holdsAt <;> infer_instance

/-- Total size of a list of entries laid out back to back. -/
def streamSize (L : MpLayout) : List Entry → Nat
  | [] => 0
  | x :: xs => x.size L + streamSize L xs

/-- The entries `es` are laid out back to back from address `p`, each one starts below `e`, and
the end of the last one is at or beyond `e`. -/
def entriesTo (L : MpLayout) (m : Mem) (e : Nat) : Nat → List Entry → Prop
  | p, [] => e ≤ p
  | p, x :: xs => p < e ∧ x.holdsAt L m p ∧ entriesTo L m e (p + x.size L) xs

instance (L : MpLayout) (m : Mem) (e p : Nat) (es : List Entry) :
    Decidable (entriesTo L m e p es) := by
  induction es generalizing p with
  | nil => unfold entriesTo; infer_instance
  | cons x xs ih => unfold entriesTo; infer_instance

/-- The controller ids of the processor entries, in table order. -/
def procIds : List Entry → List Nat
  | [] => []
  | .processor a _ :: xs => a :: procIds xs
  | _ :: xs => procIds xs

/-- The controller ids of the I/O APIC entries, in table order. -/
def ioapicIds : List Entry → List Nat
  | [] => []
  | .ioapic a :: xs => a :: ioapicIds xs
  | _ :: xs => ioapicIds xs

/-- For each processor entry, in table order, whether its flags have the `MPBP` bit. -/
def procBoot (L : MpLayout) : List Entry → List Bool
  | [] => []
  | .processor _ f :: xs => decide (f &&& L.MPBP ≠ 0) :: procBoot L xs
  | _ :: xs => procBoot L xs

/-- Position `i` of `bs` holds the last `true` of `bs`. -/
def IsLastTrue (bs : List Bool) (i : Nat) : Prop :=
  bs[i]? = some true ∧ ∀ j, i < j → bs[j]? ≠ some true

/-- The tag `t` is one of the four that the `switch` of `mp_init` has a case for. -/
def recognized (L : MpLayout) (t : Nat) : Prop :=
  t = L.MPPROCESSOR ∨ t = L.MPBUS ∨ t = L.MPIOAPIC ∨ t = L.MPIOINTR

instance (L : MpLayout) (t : Nat) : Decidable (recognized L t) := by
  unfold recognized; infer_instance

/-- The walk of `mp_init` from cursor `p` with end pointer `e` classifies exactly the entries
`es`: they are laid out back to back from `p`, each one starts below `e`, and behind the last one
the cursor is at or beyond `e` or at a tag that the `switch` has no case for. -/
def entriesWalked (L : MpLayout) (m : Mem) (e : Nat) : Nat → List Entry → Prop
  | p, [] => e ≤ p ∨ ¬ recognized L (byteAt m p)
  | p, x :: xs => p < e ∧ x.holdsAt L m p ∧ entriesWalked L m e (p + x.size L) xs

instance (L : MpLayout) (m : Mem) (e p : Nat) (es : List Entry) :
    Decidable (entriesWalked L m e p es) := by
  induction es generalizing p with
  | nil => unfold entriesWalked; infer_instance
  | cons x xs ih => unfold entriesWalked; infer_instance

/-- A single scan as the specification words it: the candidates lie at strides of the record
size from `start`, as long as the stride offset is below `len`; the first candidate that has
the signature and a zero byte sum wins. -/
def scan_ref (L : MpLayout) (m : Mem) (start len : Nat) : Option Nat :=
  ((List.range ((len + L.sizeofMp - 1) / L.sizeofMp)).map (fun j => start + j * L.sizeofMp)).find?
    (fun a => decide (validMp L m a))

/-- The locator as the specification words it.  With a non-zero EBDA segment `s` at BDA
offsets 0x0E/0x0F the first scan covers the first KiB of the EBDA, which starts at `s * 16`, and
base memory is not scanned; with a zero segment it covers the KiB that ends at the base memory
size, the 16-bit value at offsets 0x13/0x14 times 1024 (a size of zero leaves no KiB to scan).
A hit of the first scan is the result; otherwise the result is the scan of the 64 KiB from
`0xF0000`. -/
def mp_search_ref (L : MpLayout) (m : Mem) : Option Nat :=
  let first :=
    if read16 m 0x40E ≠ 0 then scan_ref L m (read16 m 0x40E * 16) 1024
    else if read16 m 0x413 = 0 then none
    else scan_ref L m (read16 m 0x413 * 1024 - 1024) 1024
  match first with
  | some a => some a
  | none => scan_ref L m 0xF0000 0x10000

/-- The globals when the entry walk of `mp_init` begins, after a successful `mp_detect`. -/
def afterDetect (L : MpLayout) (m : Mem) (k : Kernel) : Kernel :=
  { k with ncpu := 0, mp := mp_search L m,
           lapicaddr := read32 m (tableAddr L m + L.lapicaddrOff) }

/-- Effect of one recognized entry on the globals; `none` when `cpus` is full. -/
def runEntry (L : MpLayout) (k : Kernel) : Entry → Option Kernel
  | .processor a f =>
    if k.ncpu < L.NCPU then
      some { k with cpus := setApicid k.cpus k.ncpu a,
                    bcpu := if f &&& L.MPBP ≠ 0 then some k.ncpu else k.bcpu,
                    ncpu := k.ncpu + 1 }
    else none
  | .bus => some k
  | .ioapic a => some { k with ioapic_id := a }
  | .iointr => some k

/-- Effect of a list of recognized entries on the globals, in order. -/
def runEntries (L : MpLayout) : List Entry → Kernel → Option Kernel
  | [], k => some k
  | x :: xs, k => (runEntry L k x).bind (runEntries L xs)

/-- The call `lapic_startap` that descriptor `c` is due. -/
def signalFor (B : BootParams) (k : Kernel) (c : Nat) : Startap :=
  { idx := c, apicid := (k.cpus c).apicid, addr := APBOOTCODE,
    esp := (B.mpstack c + B.MPSTACK) % 2 ^ 32, entry := B.mpmain % 2 ^ 32 }

/-- The calls due to the descriptors below `c` other than `cpus[cpu()]`, in increasing order. -/
def signalsBelow (B : BootParams) (k : Kernel) (c : Nat) : List Startap :=
  ((List.range c).filter (fun j => j ≠ B.me)).map (signalFor B k)

/-- What holds at control point `pc` of `mp_startthem` started from globals `k`. -/
def pcInv (B : BootParams) (k : Kernel) (s : BootState) : Pc → Prop
  | .loop c =>
    c ≤ k.ncpu ∧ s.sent = signalsBelow B k c ∧
      ∀ j, j < c → j ≠ B.me → (s.k.cpus j).booted ≠ 0
  | .wait c =>
    c < k.ncpu ∧ c ≠ B.me ∧ s.sent = signalsBelow B k (c + 1) ∧
      (∀ j, j < c → j ≠ B.me → (s.k.cpus j).booted ≠ 0) ∧
      read32 s.mem (APBOOTCODE - 4) = (B.mpstack c + B.MPSTACK) % 2 ^ 32 ∧
      read32 s.mem (APBOOTCODE - 8) = B.mpmain % 2 ^ 32
  | .done =>
    s.sent = signalsBelow B k k.ncpu ∧
      ∀ j, j < k.ncpu → j ≠ B.me → (s.k.cpus j).booted ≠ 0

/-- The invariant of `mp_startthem` started from globals `k`. -/
def BootInv (B : BootParams) (k : Kernel) (s : BootState) : Prop :=
  s.k.ncpu = k.ncpu ∧ (∀ j, (s.k.cpus j).apicid = (k.cpus j).apicid) ∧ pcInv B k s s.pc

/-- A bound on the number of steps the acknowledged run still takes. -/
def bootMeasure (s : BootState) : Nat :=
  match s.pc with
  | .done => 0
  | .loop c => if c < s.k.ncpu then 3 * (s.k.ncpu - c) + 4 else 1
  | .wait c => 3 * (s.k.ncpu - c) + (if (s.k.cpus c).booted = 0 then 3 else 2)

/-! ## Test images -/

/-- Memory holding the byte lists `segs`, each at its start address, and zero elsewhere. -/
def memOf : List (Nat × List Nat) → Mem
  | [], _ => 0
  | (base, bs) :: rest, a =>
    if base ≤ a ∧ a < base + bs.length then bs.getD (a - base) 0 else memOf rest a

/-- Globals before `mp_init`: every descriptor zero, `bcpu` null, no port access yet. -/
def kernel0 : Kernel where
  cpus := fun _ => { apicid := 0, booted := 0 }
  ncpu := 0
  ioapic_id := 0
  bcpu := none
  mp := 0
  lapicaddr := 0
  ports := []

/-- A port device that returns `0x80` on every read. -/
def dev0 : List PortOp → Nat → Nat := fun _ _ => 0x80

/-- The BIOS data area bytes `0x40E`, `0x40F`: the word `0x0500`. -/
def bdaSeg : Nat × List Nat := (0x40E, [0x00, 0x05])

/-- A floating pointer record at `0x500` pointing to `0x600`, `imcrp` set. -/
def fpSeg : Nat × List Nat :=
  (0x500, [0x5F, 0x4D, 0x50, 0x5F, 0x00, 0x06, 0, 0, 1, 4, 0x99, 0, 1, 0, 0, 0])


/-- A candidate with the signature and a non-zero byte sum at `0x500`, followed by a record at
`0x510`. -/
def twoCandidates : Mem :=
  memOf [(0x500, [0x5F, 0x4D, 0x50, 0x5F, 0, 0, 0, 0, 0, 0, 0, 0, 0, 0, 0, 0,
                  0x5F, 0x4D, 0x50, 0x5F, 0x00, 0x06, 0, 0, 1, 4, 0x99, 0, 1, 0, 0, 0])]


/-- A configuration table with declared length `len`, version 1 and entry bytes `body`; the
checksum byte makes the first `len` bytes sum to zero modulo 256. -/
def tableBytes (len : Nat) (body : List Nat) : List Nat :=
  let rest := List.replicate 36 0 ++ body
  let partSum := ((sigPCMP ++ [len % 256, len / 256, 1, 0] ++ rest).take len).sum
  sigPCMP ++ [len % 256, len / 256, 1, (256 - partSum % 256) % 256] ++ rest

/-- The 20 bytes of a processor entry with controller id `a` and flags `f`. -/
def procBytes (a f : Nat) : List Nat := [0, a, 0x11, f] ++ List.replicate 16 0

/-- The 8 bytes of a bus entry `"ISA   "` with bus number `b`. -/
def busBytes (b : Nat) : List Nat := [1, b, 0x49, 0x53, 0x41, 0x20, 0x20, 0x20]

/-- The 8 bytes of an I/O APIC entry with id `a`. -/
def ioapicBytes (a : Nat) : List Nat := [2, a, 0x11, 1, 0, 0, 0xC0, 0xFE]

/-- The 8 bytes of an interrupt entry with tag `t` (3: I/O interrupt, 4: local interrupt). -/
def intrBytes (t : Nat) : List Nat := [t, 0, 0, 0, 0, 0, 2, 0]

/-- Memory with the BIOS data area word, the floating pointer record at `0x500` and, at
`0x600`, a table of declared length `len` with entry bytes `body`. -/
def imageOf (len : Nat) (body : List Nat) : Mem :=
  memOf [bdaSeg, fpSeg, (0x600, tableBytes len body)]

/-- Three processors (ids 4, 7, 9), the second one flagged as bootstrap processor, then a bus,
an I/O APIC and an I/O interrupt entry. -/
def imageA : Mem :=
  imageOf 128 (procBytes 4 1 ++ procBytes 7 3 ++ procBytes 9 1 ++ busBytes 0 ++ ioapicBytes 2 ++
    intrBytes 3)

/-- The entries of `imageA`. -/
def entriesA : List Entry :=
  [.processor 4 1, .processor 7 3, .processor 9 1, .bus, .ioapic 2, .iointr]

/-- A copy of `imageA` whose byte at table offset 45, the `apicid` of the first processor
entry, is 5 instead of 4. -/
def imageAMutated : Mem := fun a => if a = 0x62D then 5 else imageA a

/-- A table of declared length 52 holding one bus entry. -/
def imageBus : Mem := imageOf 52 (busBytes 186)

/-- The memory `imageBus` with the low byte of the table's `length` field changed to 44. -/
def imageBusCut : Mem := fun a => if a = 0x604 then 44 else imageBus a

/-- Parameters for the test runs of `mp_startthem`: the running processor is `cpus[1]`. -/
def bootParams0 : BootParams where
  me := 1
  mpstack := fun c => 0x20000 + (c % 8) * 0x1000
  MPSTACK := 512
  mpmain := 0x100400
  bootother_start := 0x8000
  bootother_size := 64

/-- Globals with three descriptors (ids 4, 7, 9), none of them booted, boot processor 1. -/
def kernelA : Kernel :=
  { kernel0 with ncpu := 3, cpus := fun i => { apicid := [4, 7, 9].getD i 0, booted := 0 },
                 bcpu := some 1 }

/-- A floating pointer record in the last KiB of the 32-bit address space, at `0xFFFFFC00`. -/
def imageTop : Mem := memOf [(0xFFFFFC00, fpSeg.2)]

/-- The BIOS data area holds the EBDA segment `0x9FC0`, and a floating pointer record lies at
the start of the EBDA, at physical address `0x9FC00`. -/
def imageEbda : Mem := memOf [(0x40E, [0xC0, 0x9F]), (0x9FC00, fpSeg.2)]

/-- A floating pointer record at `0x500` pointing to `0x600`, `imcrp` clear. -/
def fpSeg0 : Nat × List Nat :=
  (0x500, [0x5F, 0x4D, 0x50, 0x5F, 0x00, 0x06, 0, 0, 1, 4, 0x9A, 0, 0, 0, 0, 0])

/-- The memory of `imageA` with `imcrp` clear in the floating pointer record. -/
def imageNoImcr : Mem :=
  memOf [bdaSeg, fpSeg0, (0x600, tableBytes 128 (procBytes 4 1 ++ procBytes 7 3 ++
    procBytes 9 1 ++ busBytes 0 ++ ioapicBytes 2 ++ intrBytes 3))]

theorem memcmp_eq_zero_iff (m : Mem) (s : List Nat) (p : Nat) :
    memcmp m p s = 0 ↔ bytesAt m p s.length = s := by
  induction s generalizing p with
  | nil => simp [memcmp, bytesAt]
  | cons c cs ih =>
    by_cases h : byteAt m p = c
    · simp [memcmp, bytesAt, h, ih]
    · have h2 : (byteAt m p : Int) - (c : Int) ≠ 0 := by omega
      simp [memcmp, bytesAt, h, h2]

theorem addBytes_mod (m : Mem) (n p s : Nat) :
    addBytes m p n (s % 256) = (s + (bytesAt m p n).sum) % 256 := by
  induction n generalizing p s with
  | zero => simp [addBytes, bytesAt]
  | succ n ih =>
    have h : (s % 256 + byteAt m p) % 256 = (s + byteAt m p) % 256 := by omega
    simp only [addBytes, bytesAt, List.sum_cons, h, ih]
    congr 1; omega

theorem addBytes_zero (m : Mem) (n p : Nat) :
    addBytes m p n 0 = (bytesAt m p n).sum % 256 := by
  have h := addBytes_mod m n p 0
  simpa using h

theorem scan_hit_iff (L : MpLayout) (m : Mem) (p : Nat) :
    (memcmp m p sigMP = 0 ∧ addBytes m p L.sizeofMp 0 = 0) ↔ validMp L m p := by
  rw [memcmp_eq_zero_iff, addBytes_zero]; rfl

theorem mp_scan_loop_step (L : MpLayout) (m : Mem) (e : Int) (fuel p : Nat) :
    mp_scan_loop L m e (fuel + 1) p =
      if (p : Int) < e then
        if validMp L m p then p else mp_scan_loop L m e fuel (p + L.sizeofMp)
      else 0 := by
  rw [mp_scan_loop]
  by_cases h1 : memcmp m p sigMP = 0 <;> by_cases h2 : addBytes m p L.sizeofMp 0 = 0 <;>
    by_cases h3 : validMp L m p <;> simp [h1, h2, h3] <;>
    first
      | exact absurd ((scan_hit_iff L m p).1 ⟨h1, h2⟩) h3
      | exact absurd ((scan_hit_iff L m p).2 h3).1 h1
      | exact absurd ((scan_hit_iff L m p).2 h3).2 h2

theorem mp_scan_loop_sound (L : MpLayout) (m : Mem) (e : Int) (fuel p : Nat)
    (h : mp_scan_loop L m e fuel p ≠ 0) :
    validMp L m (mp_scan_loop L m e fuel p) ∧ p ≤ mp_scan_loop L m e fuel p ∧
      ((mp_scan_loop L m e fuel p : Nat) : Int) < e := by
  induction fuel generalizing p with
  | zero => simp [mp_scan_loop] at h
  | succ fuel ih =>
    rw [mp_scan_loop_step] at h ⊢
    by_cases h1 : (p : Int) < e
    · by_cases h2 : validMp L m p
      · simp [h1, h2]
      · simp only [h1, h2, if_true, if_false] at h ⊢
        obtain ⟨hv, hle, hlt⟩ := ih _ h
        exact ⟨hv, by omega, hlt⟩
    · simp [h1] at h

theorem mp_scan_loop_lowest (L : MpLayout) (m : Mem) (e : Int) (fuel p j : Nat)
    (hj : ((p + j * L.sizeofMp : Nat) : Int) < e) (hf : j < fuel)
    (hv : validMp L m (p + j * L.sizeofMp))
    (hmin : ∀ i, i < j → ¬ validMp L m (p + i * L.sizeofMp)) :
    mp_scan_loop L m e fuel p = p + j * L.sizeofMp := by
  induction fuel generalizing p j with
  | zero => omega
  | succ fuel ih =>
    rw [mp_scan_loop_step]
    have hp : (p : Int) < e := by
      have : p ≤ p + j * L.sizeofMp := Nat.le_add_right _ _
      omega
    cases j with
    | zero =>
      simp only [Nat.zero_mul, Nat.add_zero] at hv ⊢
      simp [hp, hv]
    | succ j =>
      have h0 : ¬ validMp L m p := by
        have := hmin 0 (Nat.succ_pos j)
        simpa using this
      have e1 : p + (j + 1) * L.sizeofMp = p + L.sizeofMp + j * L.sizeofMp := by ring
      simp only [hp, h0, if_true, if_false]
      rw [e1] at hj hv ⊢
      apply ih (p + L.sizeofMp) j hj (by omega) hv
      intro i hi
      have := hmin (i + 1) (by omega)
      have e2 : p + (i + 1) * L.sizeofMp = p + L.sizeofMp + i * L.sizeofMp := by ring
      rwa [e2] at this

/-- The iteration bound of `mp_scan_loop` is never what ends the loop: any two bounds of at
least `e - p` iterations give the same result. -/
theorem mp_scan_loop_fuel (L : MpLayout) (m : Mem) (e : Int) (f1 f2 p : Nat)
    (h1 : (e - (p : Int)).toNat ≤ f1) (h2 : (e - (p : Int)).toNat ≤ f2) :
    mp_scan_loop L m e f1 p = mp_scan_loop L m e f2 p := by
  have hS := L.sizeofMp_pos
  induction f1 generalizing p f2 with
  | zero =>
    have hp : ¬ (p : Int) < e := by omega
    cases f2 with
    | zero => rfl
    | succ f2 => rw [mp_scan_loop_step, if_neg hp]; rfl
  | succ f1 ih =>
    cases f2 with
    | zero =>
      have hp : ¬ (p : Int) < e := by omega
      rw [mp_scan_loop_step, if_neg hp]; rfl
    | succ f2 =>
      rw [mp_scan_loop_step, mp_scan_loop_step]
      by_cases hp : (p : Int) < e
      · rw [if_pos hp, if_pos hp]
        by_cases hv : validMp L m p
        · rw [if_pos hv, if_pos hv]
        · rw [if_neg hv, if_neg hv]
          exact ih f2 (p + L.sizeofMp) (by push_cast; omega) (by push_cast; omega)
      · rw [if_neg hp, if_neg hp]

theorem mp_detect_fst (L : MpLayout) (m : Mem) (k : Kernel) :
    (mp_detect L m k).1 =
      if mp_search L m = 0 ∨ tableAddr L m = 0 then 1
      else if bytesAt m (tableAddr L m) 4 ≠ sigPCMP then 2
      else if (bytesAt m (tableAddr L m) (tableLen L m)).sum % 256 ≠ 0 ∨
          (byteAt m (tableAddr L m + L.versionOff) ≠ 1 ∧
           byteAt m (tableAddr L m + L.versionOff) ≠ 4) then 3
      else 0 := by
  have hsig : ∀ q, memcmp m q sigPCMP = 0 ↔ bytesAt m q 4 = sigPCMP :=
    fun q => memcmp_eq_zero_iff m sigPCMP q
  unfold mp_detect tableLen tableAddr
  simp only [ne_eq, hsig, addBytes_zero]
  split_ifs <;> rfl

theorem mp_detect_snd (L : MpLayout) (m : Mem) (k : Kernel) :
    (mp_detect L m k).2 = { k with mp := mp_search L m } := by
  unfold mp_detect
  simp only []
  split_ifs <;> rfl

theorem mp_detect_accepts_iff (L : MpLayout) (m : Mem) (k : Kernel) :
    (mp_detect L m k).1 = 0 ↔
      (mp_search L m ≠ 0 ∧ tableAddr L m ≠ 0) ∧
      bytesAt m (tableAddr L m) 4 = sigPCMP ∧
      (bytesAt m (tableAddr L m) (tableLen L m)).sum % 256 = 0 ∧
      (byteAt m (tableAddr L m + L.versionOff) = 1 ∨
       byteAt m (tableAddr L m + L.versionOff) = 4) := by
  rw [mp_detect_fst]
  split_ifs with h1 h2 h3
  · simp only [one_ne_zero, false_iff]; tauto
  · simp only [OfNat.ofNat_ne_zero, false_iff]; tauto
  · simp only [OfNat.ofNat_ne_zero, false_iff]; tauto
  · simp only [true_iff]
    refine ⟨by tauto, by tauto, ?_, ?_⟩
    · by_contra h; exact h3 (Or.inl h)
    · by_contra h; exact h3 (Or.inr (by tauto))

/-! ## The entry walk -/

theorem tags_ne (L : MpLayout) :
    L.MPPROCESSOR ≠ L.MPBUS ∧ L.MPPROCESSOR ≠ L.MPIOAPIC ∧ L.MPPROCESSOR ≠ L.MPIOINTR ∧
    L.MPBUS ≠ L.MPIOAPIC ∧ L.MPBUS ≠ L.MPIOINTR ∧ L.MPIOAPIC ≠ L.MPIOINTR := by
  have h := L.tags_nodup
  simp only [List.nodup_cons, List.mem_cons, List.mem_singleton, not_or, List.not_mem_nil,
    not_false_eq_true, List.nodup_nil, and_true] at h
  tauto

theorem Entry.size_pos (L : MpLayout) (x : Entry) : 0 < x.size L := by
  cases x
  · exact L.sizeofMppe_pos
  · exact L.sizeofMpbe_pos
  · exact L.sizeofMpioapic_pos
  · exact L.sizeofMpie_pos

theorem recognized_of_holdsAt (L : MpLayout) (m : Mem) (p : Nat) (x : Entry)
    (h : x.holdsAt L m p) : recognized L (byteAt m p) := by
  cases x <;> simp only [Entry.holdsAt] at h <;> unfold recognized <;> tauto

theorem mp_entry_of_holdsAt (L : MpLayout) (m : Mem) (e p : Nat) (k : Kernel) (x : Entry)
    (h : x.holdsAt L m p) :
    mp_entry L m e p k = (runEntry L k x).map (fun s => (p + x.size L, s)) := by
  obtain ⟨h1, h2, h3, h4, h5, h6⟩ := tags_ne L
  cases x with
  | processor a f =>
    obtain ⟨ht, ha, hf⟩ := h
    unfold mp_entry runEntry
    simp only [ht, ha, hf, if_true, Entry.size]
    by_cases hc : k.ncpu < L.NCPU
    · by_cases hb : f &&& L.MPBP ≠ 0 <;> simp [hc, hb]
    · simp [hc]
  | bus =>
    have ht : byteAt m p = L.MPBUS := h
    unfold mp_entry runEntry
    simp [ht, Ne.symm h1, Entry.size]
  | ioapic a =>
    obtain ⟨ht, ha⟩ := h
    unfold mp_entry runEntry
    simp [ht, ha, Ne.symm h2, Ne.symm h4, Entry.size]
  | iointr =>
    have ht : byteAt m p = L.MPIOINTR := h
    unfold mp_entry runEntry
    simp [ht, Ne.symm h3, Ne.symm h5, Ne.symm h6, Entry.size]

theorem mp_parse_loop_succ (L : MpLayout) (m : Mem) (e fuel p : Nat) (k : Kernel) :
    mp_parse_loop L m e (fuel + 1) p k =
      if p < e then
        match mp_entry L m e p k with
        | none => none
        | some (p1, k1) => mp_parse_loop L m e fuel p1 k1
      else some (p, k) := by
  rw [mp_parse_loop]

theorem mp_parse_loop_done (L : MpLayout) (m : Mem) (e fuel p : Nat) (k : Kernel)
    (h : e ≤ p) : mp_parse_loop L m e fuel p k = some (p, k) := by
  cases fuel with
  | zero => rfl
  | succ fuel =>
    rw [mp_parse_loop_succ, if_neg (by omega)]

theorem entriesTo_length (L : MpLayout) (m : Mem) (e p : Nat) (es : List Entry)
    (h : entriesTo L m e p es) : es.length ≤ e - p := by
  induction es generalizing p with
  | nil => simp
  | cons x xs ih =>
    obtain ⟨hp, _, hr⟩ := h
    have := ih _ hr
    have := Entry.size_pos L x
    simp only [List.length_cons]
    omega

theorem entriesTo_end (L : MpLayout) (m : Mem) (e p : Nat) (es : List Entry)
    (h : entriesTo L m e p es) : e ≤ p + streamSize L es := by
  induction es generalizing p with
  | nil => simpa [entriesTo, streamSize] using h
  | cons x xs ih =>
    obtain ⟨_, _, hr⟩ := h
    have := ih _ hr
    simp only [streamSize]
    omega

theorem mp_parse_loop_entries (L : MpLayout) (m : Mem) (e e0 : Nat) (es : List Entry)
    (fuel p : Nat) (k : Kernel) (hw : entriesTo L m e0 p es) (he : e0 ≤ e)
    (hf : es.length ≤ fuel) :
    mp_parse_loop L m e fuel p k =
      (runEntries L es k).bind
        (fun s => mp_parse_loop L m e (fuel - es.length) (p + streamSize L es) s) := by
  induction es generalizing p k fuel with
  | nil => simp [runEntries, streamSize]
  | cons x xs ih =>
    obtain ⟨hp, hx, hr⟩ := hw
    cases fuel with
    | zero => simp at hf
    | succ fuel =>
      simp only [List.length_cons, Nat.add_le_add_iff_right] at hf
      rw [mp_parse_loop_succ, if_pos (by omega), mp_entry_of_holdsAt L m e p k x hx]
      simp only [runEntries]
      cases hx1 : runEntry L k x with
      | none => simp
      | some s =>
        simp only [Option.map_some', Option.some_bind, List.length_cons, streamSize,
          Nat.add_sub_add_right]
        rw [ih fuel (p + x.size L) s hr hf, Nat.add_assoc]

theorem mp_parse_entries (L : MpLayout) (m : Mem) (e p : Nat) (es : List Entry) (k : Kernel)
    (hw : entriesTo L m e p es) :
    mp_parse L m e p k = (runEntries L es k).map (fun s => (p + streamSize L es, s)) := by
  unfold mp_parse
  rw [mp_parse_loop_entries L m e e es (e - p) p k hw (le_refl _) (entriesTo_length L m e p es hw)]
  cases runEntries L es k with
  | none => rfl
  | some s =>
    simp only [Option.some_bind, Option.map_some']
    exact mp_parse_loop_done L m e _ _ s (entriesTo_end L m e p es hw)

theorem mp_init_of_accept (L : MpLayout) (dev : List PortOp → Nat → Nat) (m : Mem) (k0 : Kernel)
    (h : (mp_detect L m k0).1 = 0) :
    mp_init L dev m k0 =
      (mp_parse L m (tableAddr L m + tableLen L m) (tableAddr L m + L.sizeofMpctb)
        (afterDetect L m k0)).map (fun r => mp_imcr L dev m r.2) := by
  have h1 : (mp_detect L m { k0 with ncpu := 0 }).1 = 0 := by
    rw [mp_detect_fst] at h ⊢; exact h
  have h2 := mp_detect_snd L m { k0 with ncpu := 0 }
  have h3 : mp_detect L m { k0 with ncpu := 0 } =
      (0, { k0 with ncpu := 0, mp := mp_search L m }) := Prod.ext h1 h2
  unfold mp_init
  simp only [h3, ne_eq, not_true_eq_false, if_false]
  unfold afterDetect tableLen tableAddr
  cases mp_parse L m _ _ _ with
  | none => rfl
  | some r => rfl

theorem mp_init_of_reject (L : MpLayout) (dev : List PortOp → Nat → Nat) (m : Mem) (k0 : Kernel)
    (h : (mp_detect L m k0).1 ≠ 0) :
    mp_init L dev m k0 = some { k0 with ncpu := 0, mp := mp_search L m } := by
  have h1 : (mp_detect L m { k0 with ncpu := 0 }).1 ≠ 0 := by
    rw [mp_detect_fst] at h ⊢; exact h
  have h2 := mp_detect_snd L m { k0 with ncpu := 0 }
  rcases hr : mp_detect L m { k0 with ncpu := 0 } with ⟨c, k⟩
  rw [hr] at h1 h2
  simp only at h1 h2
  unfold mp_init
  simp only [hr, ne_eq, h1, not_false_eq_true, if_true, h2]

/-! ## The registry after a run of entries -/

theorem runEntry_processor (L : MpLayout) (k s : Kernel) (a f : Nat)
    (h : runEntry L k (Entry.processor a f) = some s) :
    k.ncpu < L.NCPU ∧
    s = { k with cpus := setApicid k.cpus k.ncpu a,
                 bcpu := if f &&& L.MPBP ≠ 0 then some k.ncpu else k.bcpu,
                 ncpu := k.ncpu + 1 } := by
  simp only [runEntry] at h
  by_cases hc : k.ncpu < L.NCPU
  · rw [if_pos hc] at h
    exact ⟨hc, (Option.some.inj h).symm⟩
  · rw [if_neg hc] at h
    exact absurd h (by simp)

theorem runEntries_cons_some (L : MpLayout) (x : Entry) (xs : List Entry) (k s : Kernel)
    (h : runEntries L (x :: xs) k = some s) :
    ∃ s1, runEntry L k x = some s1 ∧ runEntries L xs s1 = some s := by
  simp only [runEntries] at h
  cases hx : runEntry L k x with
  | none => rw [hx] at h; simp at h
  | some s1 => rw [hx] at h; exact ⟨s1, rfl, by simpa using h⟩

theorem runEntries_frame (L : MpLayout) (es : List Entry) (k s : Kernel)
    (h : runEntries L es k = some s) :
    s.ncpu = k.ncpu + (procIds es).length ∧
    (∀ i a, (procIds es)[i]? = some a → (s.cpus (k.ncpu + i)).apicid = a) ∧
    (∀ j, j < k.ncpu ∨ k.ncpu + (procIds es).length ≤ j → s.cpus j = k.cpus j) ∧
    (∀ j, (s.cpus j).booted = (k.cpus j).booted) ∧
    s.mp = k.mp ∧ s.lapicaddr = k.lapicaddr ∧ s.ports = k.ports := by
  induction es generalizing k with
  | nil =>
    simp only [runEntries, Option.some.injEq] at h
    subst h
    simp [procIds]
  | cons x xs ih =>
    obtain ⟨s1, hx, hr⟩ := runEntries_cons_some L x xs k s h
    obtain ⟨i1, i2, i3, i4, i5, i6, i7⟩ := ih s1 hr
    cases x with
    | processor a f =>
      obtain ⟨_, hs1⟩ := runEntry_processor L k s1 a f hx
      have n1 : s1.ncpu = k.ncpu + 1 := by rw [hs1]
      have c1 : s1.cpus = setApicid k.cpus k.ncpu a := by rw [hs1]
      have m1 : s1.mp = k.mp := by rw [hs1]
      have l1 : s1.lapicaddr = k.lapicaddr := by rw [hs1]
      have p1 : s1.ports = k.ports := by rw [hs1]
      simp only [procIds, List.length_cons]
      refine ⟨by omega, ?_, ?_, ?_, by rw [i5, m1], by rw [i6, l1], by rw [i7, p1]⟩
      · intro i b hb
        cases i with
        | zero =>
          simp only [List.getElem?_cons_zero, Option.some.injEq] at hb
          rw [Nat.add_zero, i3 k.ncpu (Or.inl (by omega)), c1]
          simp [setApicid, hb]
        | succ i =>
          simp only [List.getElem?_cons_succ] at hb
          have := i2 i b hb
          rw [n1] at this
          rw [show k.ncpu + (i + 1) = k.ncpu + 1 + i by omega]
          exact this
      · intro j hj
        rw [i3 j (by omega), c1]
        have : j ≠ k.ncpu := by omega
        simp [setApicid, this]
      · intro j
        rw [i4 j, c1]
        unfold setApicid
        by_cases hj : j = k.ncpu <;> simp [hj]
    | bus =>
      have hs1 : s1 = k := by simpa [runEntry] using hx.symm
      subst hs1
      exact ⟨i1, i2, i3, i4, i5, i6, i7⟩
    | ioapic a =>
      have hs1 : s1 = { k with ioapic_id := a } := by simpa [runEntry] using hx.symm
      subst hs1
      exact ⟨i1, i2, i3, i4, i5, i6, i7⟩
    | iointr =>
      have hs1 : s1 = k := by simpa [runEntry] using hx.symm
      subst hs1
      exact ⟨i1, i2, i3, i4, i5, i6, i7⟩

theorem runEntries_some (L : MpLayout) (es : List Entry) (k : Kernel)
    (h : k.ncpu + (procIds es).length ≤ L.NCPU) : ∃ s, runEntries L es k = some s := by
  induction es generalizing k with
  | nil => exact ⟨k, rfl⟩
  | cons x xs ih =>
    cases x with
    | processor a f =>
      simp only [procIds, List.length_cons] at h
      have hc : k.ncpu < L.NCPU := by omega
      simp only [runEntries, runEntry, if_pos hc, Option.some_bind]
      exact ih _ (by simp only; omega)
    | bus => simpa [runEntries, runEntry] using ih k h
    | ioapic a => simpa [runEntries, runEntry] using ih { k with ioapic_id := a } h
    | iointr => simpa [runEntries, runEntry] using ih k h

theorem runEntries_bcpu (L : MpLayout) (es : List Entry) (k s : Kernel)
    (h : runEntries L es k = some s) :
    (∀ i, IsLastTrue (procBoot L es) i → s.bcpu = some (k.ncpu + i)) ∧
    ((∀ j : Nat, (procBoot L es)[j]? ≠ some true) → s.bcpu = k.bcpu) := by
  induction es generalizing k with
  | nil =>
    simp only [runEntries, Option.some.injEq] at h
    subst h
    refine ⟨fun i hi => ?_, fun _ => rfl⟩
    have := hi.1
    simp [procBoot] at this
  | cons x xs ih =>
    obtain ⟨s1, hx, hr⟩ := runEntries_cons_some L x xs k s h
    obtain ⟨iA, iB⟩ := ih s1 hr
    cases x with
    | processor a f =>
      obtain ⟨_, hs1⟩ := runEntry_processor L k s1 a f hx
      have n1 : s1.ncpu = k.ncpu + 1 := by rw [hs1]
      have b1 : s1.bcpu = if f &&& L.MPBP ≠ 0 then some k.ncpu else k.bcpu := by rw [hs1]
      simp only [procBoot]
      constructor
      · intro i hi
        cases i with
        | zero =>
          obtain ⟨h0, hrest⟩ := hi
          simp only [List.getElem?_cons_zero, Option.some.injEq, decide_eq_true_eq] at h0
          have hn : ∀ j : Nat, (procBoot L xs)[j]? ≠ some true := fun j => by
            simpa using hrest (j + 1) (Nat.succ_pos j)
          rw [iB hn, b1, if_pos h0]
          rfl
        | succ i =>
          have hi2 : IsLastTrue (procBoot L xs) i := by
            refine ⟨by simpa using hi.1, fun j hj => ?_⟩
            simpa using hi.2 (j + 1) (by omega)
          rw [iA i hi2, n1]
          congr 1; omega
      · intro hno
        have h0 : ¬ (f &&& L.MPBP ≠ 0) := by
          have := hno 0
          simpa using this
        have hn : ∀ j : Nat, (procBoot L xs)[j]? ≠ some true := fun j => by
          simpa using hno (j + 1)
        rw [iB hn, b1, if_neg h0]
    | bus =>
      have hs1 : s1 = k := by simpa [runEntry] using hx.symm
      subst hs1
      exact ⟨iA, iB⟩
    | ioapic a =>
      have hs1 : s1 = { k with ioapic_id := a } := by simpa [runEntry] using hx.symm
      subst hs1
      exact ⟨iA, iB⟩
    | iointr =>
      have hs1 : s1 = k := by simpa [runEntry] using hx.symm
      subst hs1
      exact ⟨iA, iB⟩

theorem mp_imcr_registry (L : MpLayout) (dev : List PortOp → Nat → Nat) (m : Mem) (k : Kernel) :
    (mp_imcr L dev m k).ncpu = k.ncpu ∧ (mp_imcr L dev m k).cpus = k.cpus ∧
    (mp_imcr L dev m k).bcpu = k.bcpu ∧ (mp_imcr L dev m k).ioapic_id = k.ioapic_id ∧
    (mp_imcr L dev m k).mp = k.mp ∧ (mp_imcr L dev m k).lapicaddr = k.lapicaddr := by
  unfold mp_imcr
  split_ifs <;> simp

theorem mp_init_entries (L : MpLayout) (dev : List PortOp → Nat → Nat) (m : Mem) (k0 : Kernel)
    (es : List Entry) (hdet : (mp_detect L m k0).1 = 0)
    (hes : entriesTo L m (tableAddr L m + tableLen L m) (tableAddr L m + L.sizeofMpctb) es) :
    mp_init L dev m k0 = (runEntries L es (afterDetect L m k0)).map (mp_imcr L dev m) := by
  rw [mp_init_of_accept L dev m k0 hdet, mp_parse_entries L m _ _ es _ hes, Option.map_map]
  rfl

theorem bytesAt_congr (m m' : Mem) (a : Nat) (hsame : ∀ b, b ≠ a → byteAt m' b = byteAt m b)
    (n p : Nat) (h : a < p ∨ p + n ≤ a) : bytesAt m' p n = bytesAt m p n := by
  induction n generalizing p with
  | zero => rfl
  | succ n ih =>
    simp only [bytesAt]
    rw [hsame p (by omega), ih (p + 1) (by omega)]

theorem bytesAt_sum_update (m m' : Mem) (a : Nat)
    (hsame : ∀ b, b ≠ a → byteAt m' b = byteAt m b) (n p : Nat) (hlo : p ≤ a) (hhi : a < p + n) :
    (bytesAt m' p n).sum + byteAt m a = (bytesAt m p n).sum + byteAt m' a := by
  induction n generalizing p with
  | zero => omega
  | succ n ih =>
    simp only [bytesAt, List.sum_cons]
    by_cases hp : a = p
    · rw [bytesAt_congr m m' a hsame n (p + 1) (Or.inl (by omega)), hp]
      omega
    · rw [hsame p (fun h => hp h.symm)]
      have := ih (p + 1) (by omega) (by omega)
      omega

theorem runEntries_ioapic (L : MpLayout) (es : List Entry) (k s : Kernel)
    (h : runEntries L es k = some s) :
    s.ioapic_id = ((ioapicIds es).getLast?).getD k.ioapic_id := by
  induction es generalizing k with
  | nil =>
    simp only [runEntries, Option.some.injEq] at h
    subst h
    rfl
  | cons x xs ih =>
    obtain ⟨s1, hx, hr⟩ := runEntries_cons_some L x xs k s h
    have i1 := ih s1 hr
    cases x with
    | processor a f =>
      obtain ⟨_, hs1⟩ := runEntry_processor L k s1 a f hx
      have e1 : s1.ioapic_id = k.ioapic_id := by rw [hs1]
      rw [i1, e1]
      rfl
    | bus =>
      have hs1 : s1 = k := by simpa [runEntry] using hx.symm
      subst hs1
      exact i1
    | ioapic a =>
      have hs1 : s1 = { k with ioapic_id := a } := by simpa [runEntry] using hx.symm
      subst hs1
      rw [i1]
      simp only [ioapicIds, List.getLast?_cons]
      cases (ioapicIds xs).getLast? <;> rfl
    | iointr =>
      have hs1 : s1 = k := by simpa [runEntry] using hx.symm
      subst hs1
      exact i1

/-! ## Further lemmas on `mp_search` and `mp_init` -/

theorem byteAt_lt (m : Mem) (a : Nat) : byteAt m a < 256 := Nat.mod_lt _ (by decide)

theorem bdaWord_eq_read16 (m : Mem) (o : Nat) : bdaWord m (o + 1) o = read16 m (0x400 + o) := by
  unfold bdaWord read16
  have h := Nat.mul_add_lt_is_or (i := 8) (byteAt_lt m (0x400 + o)) (byteAt m (0x400 + (o + 1)))
  rw [Nat.shiftLeft_eq, Nat.mul_comm, ← h, Nat.add_assoc]
  norm_num
  omega

theorem read16_lt (m : Mem) (a : Nat) : read16 m a < 65536 := by
  unfold read16
  have := byteAt_lt m a
  have := byteAt_lt m (a + 1)
  omega

theorem mp_scan_in_range (L : MpLayout) (m : Mem) (addr : Nat) (len : Int)
    (h : mp_scan L m addr len ≠ 0) :
    validMp L m (mp_scan L m addr len) ∧ addr ≤ mp_scan L m addr len ∧
      ((mp_scan L m addr len : Nat) : Int) < (addr : Int) + len := by
  have hpos : 0 < len := by
    by_contra hc
    have h0 : len.toNat = 0 := by omega
    apply h
    unfold mp_scan
    rw [h0]
    rfl
  have key : validMp L m (mp_scan L m addr len) ∧ addr ≤ mp_scan L m addr len ∧
      ((mp_scan L m addr len : Nat) : Int) < ((addr : Int) + len) % 2 ^ 32 :=
    mp_scan_loop_sound L m _ _ _ h
  obtain ⟨hv, hle, hlt⟩ := key
  exact ⟨hv, hle, by omega⟩

theorem mp_scan_none (L : MpLayout) (m : Mem) (addr : Nat) (len : Int)
    (hno : ∀ off : Nat, (off : Int) < len → ¬ validMp L m (addr + off)) :
    mp_scan L m addr len = 0 := by
  by_contra h
  obtain ⟨hv, hle, hlt⟩ := mp_scan_in_range L m addr len h
  apply hno (mp_scan L m addr len - addr) (by omega)
  rwa [Nat.add_sub_cancel' hle]

theorem mp_entry_ports (L : MpLayout) (m : Mem) (e p p1 : Nat) (k k1 : Kernel)
    (h : mp_entry L m e p k = some (p1, k1)) : k1.ports = k.ports ∧ k1.mp = k.mp := by
  unfold mp_entry at h
  split_ifs at h <;>
    simp only [Option.some.injEq, Prod.mk.injEq] at h <;>
    obtain ⟨-, rfl⟩ := h <;> exact ⟨rfl, rfl⟩

theorem mp_parse_loop_ports (L : MpLayout) (m : Mem) (e fuel p q : Nat) (k s : Kernel)
    (h : mp_parse_loop L m e fuel p k = some (q, s)) : s.ports = k.ports ∧ s.mp = k.mp := by
  induction fuel generalizing p k with
  | zero =>
    simp only [mp_parse_loop, Option.some.injEq, Prod.mk.injEq] at h
    obtain ⟨-, rfl⟩ := h
    exact ⟨rfl, rfl⟩
  | succ fuel ih =>
    rw [mp_parse_loop_succ] at h
    by_cases hp : p < e
    · rw [if_pos hp] at h
      cases hent : mp_entry L m e p k with
      | none => rw [hent] at h; simp at h
      | some r =>
        obtain ⟨p1, k1⟩ := r
        rw [hent] at h
        obtain ⟨a1, a2⟩ := mp_entry_ports L m e p p1 k k1 hent
        obtain ⟨b1, b2⟩ := ih p1 k1 h
        exact ⟨b1.trans a1, b2.trans a2⟩
    · rw [if_neg hp] at h
      simp only [Option.some.injEq, Prod.mk.injEq] at h
      obtain ⟨-, rfl⟩ := h
      exact ⟨rfl, rfl⟩

theorem exists_isLastTrue (bs : List Bool) (h : ∃ j : Nat, bs[j]? = some true) :
    ∃ i, IsLastTrue bs i := by
  induction bs with
  | nil => obtain ⟨j, hj⟩ := h; simp at hj
  | cons b bs ih =>
    by_cases hr : ∃ j : Nat, bs[j]? = some true
    · obtain ⟨i, hi1, hi2⟩ := ih hr
      refine ⟨i + 1, by simpa using hi1, fun j hj => ?_⟩
      cases j with
      | zero => omega
      | succ j => simpa using hi2 j (by omega)
    · obtain ⟨j, hj⟩ := h
      cases j with
      | zero =>
        refine ⟨0, hj, fun j hj2 => ?_⟩
        cases j with
        | zero => omega
        | succ j =>
          intro hc
          exact hr ⟨j, by simpa using hc⟩
      | succ j => exact absurd ⟨j, by simpa using hj⟩ hr

theorem runEntries_rerun (L : MpLayout) (es : List Entry) (k s k' : Kernel)
    (h : runEntries L es k = some s) (hcap : k.ncpu + (procIds es).length ≤ L.NCPU)
    (hn : k'.ncpu = k.ncpu) (hc : k'.cpus = s.cpus) (hb : k'.bcpu = s.bcpu)
    (hi : k'.ioapic_id = s.ioapic_id) :
    ∃ s', runEntries L es k' = some s' ∧ s'.ncpu = s.ncpu ∧ s'.cpus = s.cpus ∧
      s'.bcpu = s.bcpu ∧ s'.ioapic_id = s.ioapic_id := by
  obtain ⟨s', hs'⟩ := runEntries_some L es k' (by rw [hn]; exact hcap)
  obtain ⟨f1, f2, f3, f4, -⟩ := runEntries_frame L es k s h
  obtain ⟨g1, g2, g3, g4, -⟩ := runEntries_frame L es k' s' hs'
  obtain ⟨b1, b2⟩ := runEntries_bcpu L es k s h
  obtain ⟨c1, c2⟩ := runEntries_bcpu L es k' s' hs'
  have io1 := runEntries_ioapic L es k s h
  have io2 := runEntries_ioapic L es k' s' hs'
  refine ⟨s', hs', by rw [g1, f1, hn], ?_, ?_, ?_⟩
  · funext j
    by_cases hj : j < k.ncpu ∨ k.ncpu + (procIds es).length ≤ j
    · rw [g3 j (by rw [hn]; exact hj), hc]
    · have hlt : j - k.ncpu < (procIds es).length := by omega
      have hget : (procIds es)[j - k.ncpu]? = some ((procIds es)[j - k.ncpu]) :=
        List.getElem?_eq_getElem hlt
      have a1 := f2 _ _ hget
      have a2 := g2 _ _ hget
      rw [hn] at a2
      rw [show k.ncpu + (j - k.ncpu) = j by omega] at a1 a2
      have a3 : (s'.cpus j).booted = (s.cpus j).booted := by rw [g4 j, hc]
      cases hA : s'.cpus j
      cases hB : s.cpus j
      rw [hA] at a2 a3
      rw [hB] at a1 a3
      simp only at a1 a2 a3
      rw [a1, a2, a3]
  · by_cases hex : ∃ j : Nat, (procBoot L es)[j]? = some true
    · obtain ⟨i, hlast⟩ := exists_isLastTrue _ hex
      rw [c1 i hlast, b1 i hlast, hn]
    · have hno : ∀ j : Nat, (procBoot L es)[j]? ≠ some true := fun j hj => hex ⟨j, hj⟩
      rw [c2 hno, hb]
  · rw [io2, hi]
    cases hl : (ioapicIds es).getLast? with
    | none => rfl
    | some a => rw [io1, hl]; rfl

theorem byteAt_write32 (m : Mem) (a v x : Nat) :
    byteAt (write32 m a v) x =
      if x = a then v % 256
      else if x = a + 1 then v / 256 % 256
      else if x = a + 2 then v / 65536 % 256
      else if x = a + 3 then v / 16777216 % 256
      else byteAt m x := by
  unfold byteAt write32
  split_ifs <;> simp

theorem read32_write32_same (m : Mem) (a v : Nat) (hv : v < 2 ^ 32) :
    read32 (write32 m a v) a = v := by
  unfold read32
  simp only [byteAt_write32]
  simp
  omega

theorem read32_write32_other (m : Mem) (a b v : Nat) (h : a + 4 ≤ b ∨ b + 4 ≤ a) :
    read32 (write32 m a v) b = read32 m b := by
  unfold read32
  simp only [byteAt_write32]
  have h0 : b ≠ a := by omega
  have h1 : b ≠ a + 1 := by omega
  have h2 : b ≠ a + 2 := by omega
  have h3 : b ≠ a + 3 := by omega
  have h4 : b + 1 ≠ a := by omega
  have h5 : b + 1 ≠ a + 1 := by omega
  have h6 : b + 1 ≠ a + 2 := by omega
  have h7 : b + 1 ≠ a + 3 := by omega
  have h8 : b + 2 ≠ a := by omega
  have h9 : b + 2 ≠ a + 1 := by omega
  have h10 : b + 2 ≠ a + 2 := by omega
  have h11 : b + 2 ≠ a + 3 := by omega
  have h12 : b + 3 ≠ a := by omega
  have h13 : b + 3 ≠ a + 1 := by omega
  have h14 : b + 3 ≠ a + 2 := by omega
  have h15 : b + 3 ≠ a + 3 := by omega
  simp only [h0, h1, h2, h3, h4, h5, h6, h7, h8, h9, h10, h11, h12, h13, h14, h15, if_false]

theorem signalsBelow_succ (B : BootParams) (k : Kernel) (c : Nat) :
    signalsBelow B k (c + 1) =
      signalsBelow B k c ++ (if c = B.me then [] else [signalFor B k c]) := by
  unfold signalsBelow
  rw [List.range_succ, List.filter_append, List.map_append]
  by_cases h : c = B.me <;> simp [h]

theorem mem_signalsBelow (B : BootParams) (k : Kernel) (c : Nat) (ev : Startap)
    (h : ev ∈ signalsBelow B k c) : ev.idx < c ∧ ev.idx ≠ B.me ∧ ev = signalFor B k ev.idx := by
  unfold signalsBelow at h
  simp only [List.mem_map, List.mem_filter, List.mem_range, decide_eq_true_eq] at h
  obtain ⟨j, ⟨hj, hne⟩, rfl⟩ := h
  exact ⟨hj, hne, rfl⟩

theorem bootInv_init (B : BootParams) (m : Mem) (k : Kernel) :
    BootInv B k (mp_startthem_init B m k) :=
  ⟨rfl, fun _ => rfl, Nat.zero_le _, rfl, fun j hj => absurd hj (Nat.not_lt_zero j)⟩

theorem params_after_stores (m : Mem) (v w : Nat) (hv : v < 2 ^ 32) (hw : w < 2 ^ 32) :
    read32 (write32 (write32 m (APBOOTCODE - 4) v) (APBOOTCODE - 8) w) (APBOOTCODE - 4) = v ∧
    read32 (write32 (write32 m (APBOOTCODE - 4) v) (APBOOTCODE - 8) w) (APBOOTCODE - 8) = w := by
  constructor
  · rw [read32_write32_other _ _ _ _ (by unfold APBOOTCODE; omega), read32_write32_same _ _ _ hv]
  · rw [read32_write32_same _ _ _ hw]

theorem bootInv_ctrl (B : BootParams) (k : Kernel) (s : BootState) (h : BootInv B k s) :
    BootInv B k (mp_startthem_step B s) := by
  obtain ⟨hn, ha, hp⟩ := h
  have hv : (B.mpstack 0 + B.MPSTACK) % 2 ^ 32 < 2 ^ 32 := Nat.mod_lt _ (by norm_num)
  cases hpc : s.pc with
  | loop c =>
    rw [hpc] at hp
    obtain ⟨hc, hsent, hb⟩ := hp
    unfold mp_startthem_step
    rw [hpc]
    simp only
    by_cases h1 : c < s.k.ncpu
    · rw [if_pos h1]
      by_cases h2 : c = B.me
      · rw [if_pos h2]
        refine ⟨hn, ha, by omega, ?_, ?_⟩
        · rw [signalsBelow_succ, if_pos h2, List.append_nil]; exact hsent
        · intro j hj hne
          exact hb j (by omega) hne
      · rw [if_neg h2]
        obtain ⟨r1, r2⟩ := params_after_stores s.mem ((B.mpstack c + B.MPSTACK) % 2 ^ 32)
          (B.mpmain % 2 ^ 32) (Nat.mod_lt _ (by norm_num)) (Nat.mod_lt _ (by norm_num))
        refine ⟨hn, ha, by omega, h2, ?_, hb, r1, r2⟩
        show s.sent ++ [_] = _
        rw [signalsBelow_succ, if_neg h2, hsent, r1, r2, ha c]
        rfl
    · rw [if_neg h1]
      have hcn : c = k.ncpu := by omega
      subst hcn
      exact ⟨hn, ha, hsent, hb⟩
  | wait c =>
    rw [hpc] at hp
    obtain ⟨hc, hne, hsent, hb, hm1, hm2⟩ := hp
    unfold mp_startthem_step
    rw [hpc]
    simp only
    by_cases h1 : (s.k.cpus c).booted = 0
    · rw [if_pos h1]
      refine ⟨hn, ha, ?_⟩
      rw [hpc]
      exact ⟨hc, hne, hsent, hb, hm1, hm2⟩
    · rw [if_neg h1]
      refine ⟨hn, ha, by omega, hsent, ?_⟩
      intro j hj hjne
      by_cases hjc : j = c
      · subst hjc; exact h1
      · exact hb j (by omega) hjne
  | done =>
    rw [hpc] at hp
    unfold mp_startthem_step
    rw [hpc]
    refine ⟨hn, ha, ?_⟩
    rw [hpc]
    exact hp

theorem bootInv_remote (B : BootParams) (k : Kernel) (s : BootState) (j v : Nat) (hv : v ≠ 0)
    (h : BootInv B k s) : BootInv B k (remote_set s j v) := by
  obtain ⟨hn, ha, hp⟩ := h
  have hb : ∀ i, (s.k.cpus i).booted ≠ 0 → ((remote_set s j v).k.cpus i).booted ≠ 0 := by
    intro i hi
    unfold remote_set
    by_cases hij : i = j
    · simp [hij, hv]
    · simpa [hij] using hi
  refine ⟨hn, ?_, ?_⟩
  · intro i
    rw [← ha i]
    unfold remote_set
    by_cases hij : i = j <;> simp [hij]
  · show pcInv B k (remote_set s j v) s.pc
    cases hpc : s.pc with
    | loop c =>
      rw [hpc] at hp
      exact ⟨hp.1, hp.2.1, fun i hi hne => hb i (hp.2.2 i hi hne)⟩
    | wait c =>
      rw [hpc] at hp
      obtain ⟨hc, hne, hsent, hb0, hm1, hm2⟩ := hp
      exact ⟨hc, hne, hsent, fun i hi hne => hb i (hb0 i hi hne), hm1, hm2⟩
    | done =>
      rw [hpc] at hp
      exact ⟨hp.1, fun i hi hne => hb i (hp.2 i hi hne)⟩

theorem bootInv_of_reachable (B : BootParams) (m : Mem) (k : Kernel) (s : BootState)
    (h : Reachable B m k s) : BootInv B k s := by
  induction h with
  | init => exact bootInv_init B m k
  | step s t _ ht ih =>
    cases ht with
    | ctrl => exact bootInv_ctrl B k s ih
    | remote j v hv => exact bootInv_remote B k s j v hv ih

theorem step_acked (B : BootParams) (s : BootState) : Step B s (acked_step B s) := by
  unfold acked_step
  cases hpc : s.pc with
  | loop c => exact Step.ctrl s
  | wait c =>
    simp only
    by_cases h : (s.k.cpus c).booted = 0
    · rw [if_pos h]; exact Step.remote s c 1 (by decide)
    · rw [if_neg h]; exact Step.ctrl s
  | done => exact Step.ctrl s

theorem reachable_acked (B : BootParams) (m : Mem) (k : Kernel) (n : Nat) :
    Reachable B m k ((acked_step B)^[n] (mp_startthem_init B m k)) := by
  induction n with
  | zero => exact Reachable.init
  | succ n ih =>
    rw [Function.iterate_succ_apply']
    exact Reachable.step _ _ ih (step_acked B _)

theorem bootMeasure_acked (B : BootParams) (s : BootState) :
    bootMeasure (acked_step B s) ≤ bootMeasure s - 1 := by
  cases hpc : s.pc with
  | loop c =>
    unfold acked_step mp_startthem_step
    simp only [hpc]
    by_cases h1 : c < s.k.ncpu
    · by_cases h2 : c = B.me
      · simp only [if_pos h1, if_pos h2, bootMeasure, hpc]
        split_ifs <;> omega
      · simp only [if_pos h1, if_neg h2, bootMeasure, hpc]
        split_ifs <;> omega
    · simp [if_neg h1, bootMeasure]
  | wait c =>
    unfold acked_step mp_startthem_step
    simp only [hpc]
    by_cases h1 : (s.k.cpus c).booted = 0
    · simp [if_pos h1, bootMeasure, remote_set, hpc, h1]
    · simp only [if_neg h1, bootMeasure, hpc]
      split_ifs <;> omega
  | done =>
    unfold acked_step mp_startthem_step
    simp [hpc, bootMeasure]

theorem acked_run_done (B : BootParams) (n : Nat) (s : BootState) (h : bootMeasure s ≤ n) :
    ((acked_step B)^[n] s).pc = Pc.done := by
  induction n generalizing s with
  | zero =>
    simp only [Function.iterate_zero, id_eq]
    unfold bootMeasure at h
    cases hpc : s.pc with
    | loop c => rw [hpc] at h; simp only at h; split_ifs at h <;> omega
    | wait c => rw [hpc] at h; simp only at h; split_ifs at h <;> omega
    | done => rfl
  | succ n ih =>
    rw [Function.iterate_succ_apply]
    apply ih
    have := bootMeasure_acked B s
    omega

theorem mp_startthem_done (B : BootParams) (m : Mem) (k : Kernel) :
    (mp_startthem B m k).pc = Pc.done := by
  apply acked_run_done
  unfold bootMeasure mp_startthem_init
  simp only
  split_ifs <;> omega

theorem reachable_sent (B : BootParams) (m : Mem) (k : Kernel) (s : BootState)
    (h : Reachable B m k s) : ∃ c, c ≤ k.ncpu ∧ s.sent = signalsBelow B k c := by
  obtain ⟨-, -, hp⟩ := bootInv_of_reachable B m k s h
  cases hpc : s.pc with
  | loop c => rw [hpc] at hp; exact ⟨c, hp.1, hp.2.1⟩
  | wait c => rw [hpc] at hp; exact ⟨c + 1, hp.1, hp.2.2.1⟩
  | done => rw [hpc] at hp; exact ⟨k.ncpu, le_refl _, hp.1⟩

theorem filter_ne_range_length (me n : Nat) :
    ((List.range n).filter (fun j => j ≠ me)).length = if me < n then n - 1 else n := by
  induction n with
  | zero => simp
  | succ n ih =>
    rw [List.range_succ, List.filter_append, List.length_append, ih]
    by_cases h : n = me
    · subst h; simp
    · simp only [List.filter_cons, List.filter_nil, h, ne_eq, not_false_eq_true, decide_True,
        if_true, List.length_singleton]
      split_ifs <;> omega

theorem imageEbda_rom (off : Nat) : ¬ validMp stdLayout imageEbda (0xF0000 + off) := by
  intro h
  have h1 := h.1
  have e1 : ¬ (0x40E ≤ 0xF0000 + off ∧ 0xF0000 + off < 0x40E + 2) := by omega
  have e2 : ¬ (0x9FC00 ≤ 0xF0000 + off ∧ 0xF0000 + off < 0x9FC00 + 16) := by omega
  have hz : byteAt imageEbda (0xF0000 + off) = 0 := by
    simp only [byteAt, imageEbda, memOf, fpSeg, List.length_cons, List.length_nil]
    rw [if_neg e1, if_neg e2]
  simp only [bytesAt, sigMP, List.cons.injEq] at h1
  rw [hz] at h1
  omega

theorem entriesWalked_of_entriesTo (L : MpLayout) (m : Mem) (e p : Nat) (es : List Entry)
    (h : entriesTo L m e p es) : entriesWalked L m e p es := by
  induction es generalizing p with
  | nil => exact Or.inl h
  | cons x xs ih => exact ⟨h.1, h.2.1, ih _ h.2.2⟩

theorem exists_entriesWalked (L : MpLayout) (m : Mem) (e p : Nat) :
    ∃ es, entriesWalked L m e p es := by
  have key : ∀ n p, e - p ≤ n → ∃ es, entriesWalked L m e p es := by
    intro n
    induction n with
    | zero => intro p hp; exact ⟨[], Or.inl (by omega)⟩
    | succ n ih =>
      intro p hp
      by_cases hlt : p < e
      · by_cases hr : recognized L (byteAt m p)
        · have step : ∀ x : Entry, x.holdsAt L m p → ∃ es, entriesWalked L m e p es := by
            intro x hx
            have := Entry.size_pos L x
            obtain ⟨es, hes⟩ := ih (p + x.size L) (by omega)
            exact ⟨x :: es, hlt, hx, hes⟩
          rcases hr with h1 | h1 | h1 | h1
          · exact step (.processor (byteAt m (p + L.apicidOff)) (byteAt m (p + L.flagsOff)))
              ⟨h1, rfl, rfl⟩
          · exact step .bus h1
          · exact step (.ioapic (byteAt m (p + L.apicnoOff))) ⟨h1, rfl⟩
          · exact step .iointr h1
        · exact ⟨[], Or.inr hr⟩
      · exact ⟨[], Or.inl (by omega)⟩
  exact key (e - p) p (le_refl _)

set_option maxRecDepth 100000

/-- C4: if no offset of the scanned range `[addr, addr+len)` holds a record that starts with
`"_MP_"` and whose `sizeof(struct mp)` bytes sum to zero modulo 256, `mp_scan` returns `0`;
and whenever `mp_scan` returns a non-null pointer, the record at that pointer has the signature
and a zero byte sum. -/
theorem mp_scan_sound (L : MpLayout) (m : Mem) (addr : Nat) (len : Int) :
    ((∀ off : Nat, (off : Int) < len → ¬ validMp L m (addr + off)) → mp_scan L m addr len = 0) ∧
    (mp_scan L m addr len ≠ 0 → validMp L m (mp_scan L m addr len)) := by
  have key : mp_scan L m addr len ≠ 0 →
      validMp L m (mp_scan L m addr len) ∧ addr ≤ mp_scan L m addr len ∧
        ((mp_scan L m addr len : Nat) : Int) < (addr : Int) + len :=
    fun h => mp_scan_in_range L m addr len h
  refine ⟨fun hno => ?_, fun h => (key h).1⟩
  by_contra h
  obtain ⟨hv, hle, hlt⟩ := key h
  apply hno (mp_scan L m addr len - addr) (by omega)
  rwa [Nat.add_sub_cancel' hle]

/-- C5 as stated fails: the range of 1024 bytes from `0xFFFFFC00`, which `mp_search` scans when
the base memory word is zero, reaches the end of the 32-bit address space, so the end pointer
`addr+len` is `0` and the loop `p < e` never runs: the record at offset 0 of the range is not
returned, `mp_scan` returns `0`. -/
theorem mp_scan_wrap_counterexample :
    validMp stdLayout imageTop (0xFFFFFC00 + 0 * stdLayout.sizeofMp) ∧
    ((0 * stdLayout.sizeofMp : Nat) : Int) < 1024 ∧
    mp_scan stdLayout imageTop 0xFFFFFC00 1024 = 0 := by
  decide

/-- C5, amended: for a range that ends below the end of the 32-bit address space,
`addr + len < 2^32`: if the record at offset `j * sizeof(struct mp) < len` has the signature and
a zero byte sum, and no record at a lower multiple of the record size has both (some may have
the signature with a non-zero sum), `mp_scan` returns the pointer at offset
`j * sizeof(struct mp)`. -/
theorem mp_scan_lowest (L : MpLayout) (m : Mem) (addr : Nat) (len : Int) (j : Nat)
    (hend : (addr : Int) + len < 2 ^ 32)
    (hj : ((j * L.sizeofMp : Nat) : Int) < len)
    (hv : validMp L m (addr + j * L.sizeofMp))
    (hmin : ∀ i, i < j → ¬ validMp L m (addr + i * L.sizeofMp)) :
    mp_scan L m addr len = addr + j * L.sizeofMp := by
  have hS := L.sizeofMp_pos
  have hle : j ≤ j * L.sizeofMp := Nat.le_mul_of_pos_right j hS
  have hmod : ((addr : Int) + len) % 2 ^ 32 = (addr : Int) + len :=
    Int.emod_eq_of_lt (by omega) hend
  unfold mp_scan
  rw [hmod]
  exact mp_scan_loop_lowest L m _ _ addr j (by push_cast at hj ⊢; omega) (by omega) hv hmin

/-- Witness of C4: an all-zero range holds no record and the scan returns `0`; a range that
starts with a record yields a pointer to a record. -/
theorem mp_scan_sound_witness :
    mp_scan stdLayout (memOf []) 0x500 64 = 0 ∧
    mp_scan stdLayout (memOf [bdaSeg, fpSeg]) 0x500 1024 ≠ 0 ∧
    validMp stdLayout (memOf [bdaSeg, fpSeg]) (mp_scan stdLayout (memOf [bdaSeg, fpSeg]) 0x500 1024) :=
  ⟨(mp_scan_sound stdLayout (memOf []) 0x500 64).1 (fun off _ h => by
      have h1 := h.1
      simp [bytesAt, sigMP, byteAt, memOf] at h1),
   by decide,
   (mp_scan_sound stdLayout (memOf [bdaSeg, fpSeg]) 0x500 1024).2 (by decide)⟩

/-- Witness of the amended C5: the candidate at offset `0` is skipped and the record at offset `16` is
returned. -/
theorem mp_scan_lowest_witness : mp_scan stdLayout twoCandidates 0x500 1024 = 0x500 + 1 * 16 :=
  mp_scan_lowest stdLayout twoCandidates 0x500 1024 1 (by decide) (by decide) (by decide)
    (fun i hi => by
      have hi0 : i = 0 := by omega
      subst hi0
      decide)

/-- C1: `mp_detect` returns 1 when `mp_search` finds no record or the record's `physaddr` is
zero; otherwise 2 when the four bytes at the table are not `"PCMP"`; otherwise 3 when the first
`length` bytes of the table do not sum to zero modulo 256 or the version is neither 1 nor 4;
otherwise 0.  It returns 0 exactly when all four conditions hold. -/
theorem mp_detect_classifies (L : MpLayout) (m : Mem) (k : Kernel) :
    ((mp_detect L m k).1 =
      if mp_search L m = 0 ∨ tableAddr L m = 0 then 1
      else if bytesAt m (tableAddr L m) 4 ≠ sigPCMP then 2
      else if (bytesAt m (tableAddr L m) (tableLen L m)).sum % 256 ≠ 0 ∨
          (byteAt m (tableAddr L m + L.versionOff) ≠ 1 ∧
           byteAt m (tableAddr L m + L.versionOff) ≠ 4) then 3
      else 0) ∧
    ((mp_detect L m k).1 = 0 ↔
      (mp_search L m ≠ 0 ∧ tableAddr L m ≠ 0) ∧
      bytesAt m (tableAddr L m) 4 = sigPCMP ∧
      (bytesAt m (tableAddr L m) (tableLen L m)).sum % 256 = 0 ∧
      (byteAt m (tableAddr L m + L.versionOff) = 1 ∨
       byteAt m (tableAddr L m + L.versionOff) = 4)) :=
  ⟨mp_detect_fst L m k, mp_detect_accepts_iff L m k⟩

/-- C6 as stated fails: `mp_detect` accepts a table of declared length 52 and still accepts it
after the low byte of its `length` field, at offset 4, is changed from 52 to 44. -/
theorem mp_detect_length_counterexample :
    (mp_detect stdLayout imageBus kernel0).1 = 0 ∧
    tableAddr stdLayout imageBus = 0x600 ∧ tableLen stdLayout imageBus = 52 ∧
    (∀ b, b ≠ 0x604 → imageBusCut b = imageBus b) ∧
    byteAt imageBusCut 0x604 ≠ byteAt imageBus 0x604 ∧
    (mp_detect stdLayout imageBusCut kernel0).1 = 0 := by
  refine ⟨by decide, by decide, by decide, ?_, by decide, by decide⟩
  intro b hb
  simp [imageBusCut, hb]

/-- C6, amended: when `mp_detect` accepts a table and exactly one byte at an offset below the
declared length, other than the two bytes of the `length` field, changes its value, the floating
pointer record still designating the table, `mp_detect` returns non-zero. -/
theorem mp_detect_rejects_mutation (L : MpLayout) (m m' : Mem) (k : Kernel) (a : Nat)
    (hacc : (mp_detect L m k).1 = 0)
    (hsame : ∀ b, b ≠ a → byteAt m' b = byteAt m b) (hdiff : byteAt m' a ≠ byteAt m a)
    (hlo : tableAddr L m ≤ a) (hhi : a < tableAddr L m + tableLen L m)
    (hlen1 : a ≠ tableAddr L m + L.lengthOff) (hlen2 : a ≠ tableAddr L m + L.lengthOff + 1)
    (hphys : tableAddr L m' = tableAddr L m) :
    (mp_detect L m' k).1 ≠ 0 := by
  intro hacc'
  obtain ⟨-, -, hsum, -⟩ := (mp_detect_accepts_iff L m k).1 hacc
  obtain ⟨-, -, hsum', -⟩ := (mp_detect_accepts_iff L m' k).1 hacc'
  have hl : tableLen L m' = tableLen L m := by
    unfold tableLen read16
    rw [hphys, hsame _ (Ne.symm hlen1), hsame _ (Ne.symm hlen2)]
  rw [hphys, hl] at hsum'
  have hupd := bytesAt_sum_update m m' a hsame (tableLen L m) (tableAddr L m) hlo hhi
  have b1 : byteAt m a < 256 := Nat.mod_lt _ (by decide)
  have b2 : byteAt m' a < 256 := Nat.mod_lt _ (by decide)
  omega

/-- Witness of the amended C6: changing the first `apicid` byte of an accepted table makes
`mp_detect` return non-zero. -/
theorem mp_detect_rejects_mutation_witness :
    (mp_detect stdLayout imageAMutated kernel0).1 ≠ 0 :=
  mp_detect_rejects_mutation stdLayout imageA imageAMutated kernel0 0x62D (by decide)
    (fun b hb => by simp [imageAMutated, byteAt, hb]) (by decide) (by decide) (by decide)
    (by decide) (by decide) (by decide)

/-- C10: when `mp_detect` fails, `mp_init` returns with `ncpu = 0` whatever `ncpu` was before,
and with `cpus`, `ioapic_id`, `bcpu` and the port trace exactly as they were: nothing is
written to a descriptor or to `ioapic_id` and no port is accessed. -/
theorem mp_init_detect_fails (L : MpLayout) (dev : List PortOp → Nat → Nat) (m : Mem)
    (k0 : Kernel) (h : (mp_detect L m k0).1 ≠ 0) :
    ∃ k, mp_init L dev m k0 = some k ∧ k.ncpu = 0 ∧ k.cpus = k0.cpus ∧
      k.ioapic_id = k0.ioapic_id ∧ k.bcpu = k0.bcpu ∧ k.ports = k0.ports :=
  ⟨_, mp_init_of_reject L dev m k0 h, rfl, rfl, rfl, rfl, rfl⟩

/-- Witness of C10: with a floating pointer record but no table signature at `0x600`,
`mp_detect` fails and `mp_init` resets `ncpu` from 5 to 0. -/
theorem mp_init_detect_fails_witness :
    ∃ k, mp_init stdLayout dev0 (memOf [bdaSeg, fpSeg]) { kernel0 with ncpu := 5 } = some k ∧
      k.ncpu = 0 ∧ k.cpus = kernel0.cpus ∧ k.ioapic_id = kernel0.ioapic_id ∧
      k.bcpu = kernel0.bcpu ∧ k.ports = kernel0.ports :=
  mp_init_detect_fails stdLayout dev0 (memOf [bdaSeg, fpSeg]) { kernel0 with ncpu := 5 }
    (by decide)

/-- C12, the code at the failing input: the BIOS data area holds the EBDA segment `0x9FC0` and
a floating pointer record lies at `0x9FC0 * 16`, the start of the EBDA.  The reference scans
the first KiB of the EBDA and returns that record, and `mp_scan` run on that KiB returns it too;
`mp_search` returns `0`. -/
theorem mp_search_ref_failing :
    read16 imageEbda 0x40E = 0x9FC0 ∧
    mp_search_ref stdLayout imageEbda = some (0x9FC0 * 16) ∧
    mp_scan stdLayout imageEbda (0x9FC0 * 16) 1024 = 0x9FC0 * 16 ∧
    mp_search stdLayout imageEbda = 0 := by
  have h1 : mp_scan stdLayout imageEbda 0x9FC0 1024 = 0 := by decide
  have h2 : mp_scan stdLayout imageEbda 0xF0000 0x10000 = 0 :=
    mp_scan_none stdLayout imageEbda 0xF0000 0x10000 (fun off _ => imageEbda_rom off)
  have h3 : bdaWord imageEbda 0x0F 0x0E = 0x9FC0 := by decide
  refine ⟨by decide, by decide, by decide, ?_⟩
  unfold mp_search
  simp [h3, h1, h2]

/-- C13: for a validated table of recognized entries, with no more processor entries than
`cpus` has elements, and any globals `k0`: running `mp_init` a second time on the same memory
gives the same `ncpu`, the same `cpus`, the same `mp_bcpu` and the same `ioapic_id` as the
first run. -/
theorem mp_init_idempotent (L : MpLayout) (dev : List PortOp → Nat → Nat) (m : Mem)
    (k0 : Kernel) (es : List Entry) (hdet : (mp_detect L m k0).1 = 0)
    (hes : entriesTo L m (tableAddr L m + tableLen L m) (tableAddr L m + L.sizeofMpctb) es)
    (hcap : (procIds es).length ≤ L.NCPU) :
    ∃ k1 k2, mp_init L dev m k0 = some k1 ∧ mp_init L dev m k1 = some k2 ∧
      k2.ncpu = k1.ncpu ∧ k2.cpus = k1.cpus ∧ mp_bcpu k2 = mp_bcpu k1 ∧
      k2.ioapic_id = k1.ioapic_id := by
  have n0 : (afterDetect L m k0).ncpu = 0 := rfl
  obtain ⟨s, hs⟩ := runEntries_some L es (afterDetect L m k0) (by rw [n0]; omega)
  obtain ⟨g1, g2, g3, g4, -⟩ := mp_imcr_registry L dev m s
  have hdet1 : (mp_detect L m (mp_imcr L dev m s)).1 = 0 := by
    rw [mp_detect_fst] at hdet ⊢; exact hdet
  obtain ⟨s', hs', r1, r2, r3, r4⟩ := runEntries_rerun L es (afterDetect L m k0) s
    (afterDetect L m (mp_imcr L dev m s)) hs (by rw [n0]; omega) rfl g2 g3 g4
  obtain ⟨h1, h2, h3, h4, -⟩ := mp_imcr_registry L dev m s'
  refine ⟨mp_imcr L dev m s, mp_imcr L dev m s', ?_, ?_, ?_, ?_, ?_, ?_⟩
  · rw [mp_init_entries L dev m k0 es hdet hes, hs]; rfl
  · rw [mp_init_entries L dev m _ es hdet1 hes, hs']; rfl
  · rw [h1, g1, r1]
  · rw [h2, g2, r2]
  · unfold mp_bcpu; rw [h3, g3, r3]
  · rw [h4, g4, r4]

/-- Witness of C13: two runs of `mp_init` on `imageA`. -/
theorem mp_init_idempotent_witness :
    ∃ k1 k2, mp_init stdLayout dev0 imageA kernel0 = some k1 ∧
      mp_init stdLayout dev0 imageA k1 = some k2 ∧
      k2.ncpu = k1.ncpu ∧ k2.cpus = k1.cpus ∧ mp_bcpu k2 = mp_bcpu k1 ∧
      k2.ioapic_id = k1.ioapic_id :=
  mp_init_idempotent stdLayout dev0 imageA kernel0 entriesA (by decide) (by decide) (by decide)

/-- C14: `mp_startthem`, run against processors that acknowledge, returns; from every
reachable state the acknowledged run reaches the return; and in every reachable state the calls
of `lapic_startap` made so far are those due to the descriptors below some `c ≤ ncpu` other
than `cpus[cpu()]`, in increasing order, each with the descriptor's `apicid` and the address
`0x7000`, and at the return those due to all descriptors below `ncpu`.  These are `ncpu - 1`
calls when `cpu() < ncpu` and none when `ncpu = 0`. -/
theorem mp_startthem_signals (B : BootParams) (m : Mem) (k : Kernel) :
    (mp_startthem B m k).pc = Pc.done ∧ Reachable B m k (mp_startthem B m k) ∧
    (∀ s, Reachable B m k s → ((acked_step B)^[bootMeasure s] s).pc = Pc.done) ∧
    (∀ s, Reachable B m k s → s.pc = Pc.done →
      s.sent.map (fun ev => (ev.idx, ev.apicid, ev.addr)) =
        ((List.range k.ncpu).filter (fun c => c ≠ B.me)).map
          (fun c => (c, (k.cpus c).apicid, 0x7000))) ∧
    (∀ s, Reachable B m k s → ∃ c, c ≤ k.ncpu ∧
      s.sent.map (fun ev => (ev.idx, ev.apicid, ev.addr)) =
        ((List.range c).filter (fun c => c ≠ B.me)).map
          (fun c => (c, (k.cpus c).apicid, 0x7000))) ∧
    (B.me < k.ncpu → ((List.range k.ncpu).filter (fun c => c ≠ B.me)).length = k.ncpu - 1) ∧
    (k.ncpu = 0 → (List.range k.ncpu).filter (fun c => c ≠ B.me) = []) := by
  have hproj : ∀ c, (signalsBelow B k c).map (fun ev => (ev.idx, ev.apicid, ev.addr)) =
      ((List.range c).filter (fun c => c ≠ B.me)).map
        (fun c => (c, (k.cpus c).apicid, 0x7000)) := by
    intro c
    unfold signalsBelow
    rw [List.map_map]
    rfl
  refine ⟨mp_startthem_done B m k, reachable_acked B m k _,
    fun s _ => acked_run_done B _ s (le_refl _), ?_, ?_, ?_, ?_⟩
  · intro s hr hd
    obtain ⟨-, -, hp⟩ := bootInv_of_reachable B m k s hr
    rw [hd] at hp
    rw [hp.1, hproj]
  · intro s hr
    obtain ⟨c, hc, hs⟩ := reachable_sent B m k s hr
    exact ⟨c, hc, by rw [hs, hproj]⟩
  · intro hme
    rw [filter_ne_range_length, if_pos hme]
  · intro h0
    rw [h0]; rfl

/-- Witness of C14: with three descriptors (ids 4, 7, 9) and `cpu() = 1`, the calls are for
descriptors 0 and 2, in that order. -/
theorem mp_startthem_signals_witness :
    (mp_startthem bootParams0 imageA kernelA).sent.map (fun ev => (ev.idx, ev.apicid, ev.addr)) =
      [(0, 4, 0x7000), (2, 9, 0x7000)] :=
  ((mp_startthem_signals bootParams0 imageA kernelA).2.2.2.1 _
    (mp_startthem_signals bootParams0 imageA kernelA).2.1
    (mp_startthem_signals bootParams0 imageA kernelA).1).trans (by decide)

/-- C15: in every reachable state of `mp_startthem`, each call of `lapic_startap` made so far
found, when it was made, the word at `APBOOTCODE-4` equal to the address of its own
descriptor's `mpstack` plus `MPSTACK` and the word at `APBOOTCODE-8` equal to the address of
`mpmain`; and while `mp_startthem` waits for descriptor `c`, memory holds these two values for
`c`.  The addresses are 32-bit values. -/
theorem mp_startthem_params (B : BootParams) (m : Mem) (k : Kernel) (s : BootState)
    (hr : Reachable B m k s) (hstack : ∀ c, B.mpstack c + B.MPSTACK < 2 ^ 32)
    (hmain : B.mpmain < 2 ^ 32) :
    (∀ ev, ev ∈ s.sent → ev.esp = B.mpstack ev.idx + B.MPSTACK ∧ ev.entry = B.mpmain) ∧
    (∀ c, s.pc = Pc.wait c →
      read32 s.mem (APBOOTCODE - 4) = B.mpstack c + B.MPSTACK ∧
      read32 s.mem (APBOOTCODE - 8) = B.mpmain) := by
  constructor
  · intro ev hev
    obtain ⟨c, -, hs⟩ := reachable_sent B m k s hr
    rw [hs] at hev
    obtain ⟨-, -, h3⟩ := mem_signalsBelow B k c ev hev
    rw [h3]
    exact ⟨Nat.mod_eq_of_lt (hstack _), Nat.mod_eq_of_lt hmain⟩
  · intro c hc
    obtain ⟨-, -, hp⟩ := bootInv_of_reachable B m k s hr
    rw [hc] at hp
    obtain ⟨-, -, -, -, h1, h2⟩ := hp
    rw [h1, h2]
    exact ⟨Nat.mod_eq_of_lt (hstack _), Nat.mod_eq_of_lt hmain⟩

/-- Witness of C15: the two calls of the test run carry the stack tops of descriptors 0 and 2
and the address of `mpmain`. -/
theorem mp_startthem_params_witness :
    (mp_startthem bootParams0 imageA kernelA).sent.length = 2 ∧
    ∀ ev, ev ∈ (mp_startthem bootParams0 imageA kernelA).sent →
      ev.esp = bootParams0.mpstack ev.idx + bootParams0.MPSTACK ∧ ev.entry = bootParams0.mpmain :=
  ⟨by decide,
   (mp_startthem_params bootParams0 imageA kernelA _
    (reachable_acked bootParams0 imageA kernelA _)
    (fun c => by
      show 0x20000 + (c % 8) * 0x1000 + 512 < 2 ^ 32
      omega) (by decide)).1⟩

/-- C16: in every state reachable by steps of `mp_startthem` and by other processors setting
their own `booted` flag to a non-zero value: when the next step of `mp_startthem` calls
`lapic_startap`, the `booted` flag of every descriptor signalled before is non-zero; a
signalled descriptor whose flag is still zero is the one `mp_startthem` is waiting for; and a
step of `mp_startthem` leaves the globals, so every `booted` flag, as they are. -/
theorem mp_startthem_sequential (B : BootParams) (m : Mem) (k : Kernel) (s : BootState)
    (hr : Reachable B m k s) :
    (∀ ev, (mp_startthem_step B s).sent = s.sent ++ [ev] →
      ∀ e0, e0 ∈ s.sent → (s.k.cpus e0.idx).booted ≠ 0) ∧
    (∀ e0, e0 ∈ s.sent → s.pc = Pc.wait e0.idx ∨ (s.k.cpus e0.idx).booted ≠ 0) ∧
    (mp_startthem_step B s).k = s.k := by
  obtain ⟨hn, -, hp⟩ := bootInv_of_reachable B m k s hr
  refine ⟨?_, ?_, ?_⟩
  · intro ev hev e0 he0
    cases hpc : s.pc with
    | loop c =>
      rw [hpc] at hp
      obtain ⟨-, hsent, hb⟩ := hp
      rw [hsent] at he0
      obtain ⟨h1, h2, -⟩ := mem_signalsBelow B k c e0 he0
      exact hb _ h1 h2
    | wait c =>
      unfold mp_startthem_step at hev
      rw [hpc] at hev
      simp only at hev
      split_ifs at hev <;> simp at hev
    | done =>
      unfold mp_startthem_step at hev
      rw [hpc] at hev
      simp at hev
  · intro e0 he0
    cases hpc : s.pc with
    | loop c =>
      rw [hpc] at hp
      obtain ⟨-, hsent, hb⟩ := hp
      rw [hsent] at he0
      obtain ⟨h1, h2, -⟩ := mem_signalsBelow B k c e0 he0
      exact Or.inr (hb _ h1 h2)
    | wait c =>
      rw [hpc] at hp
      obtain ⟨-, -, hsent, hb, -⟩ := hp
      rw [hsent] at he0
      obtain ⟨h1, h2, -⟩ := mem_signalsBelow B k (c + 1) e0 he0
      by_cases hc : e0.idx = c
      · exact Or.inl (by rw [hc])
      · exact Or.inr (hb _ (by omega) h2)
    | done =>
      rw [hpc] at hp
      obtain ⟨hsent, hb⟩ := hp
      rw [hsent] at he0
      obtain ⟨h1, h2, -⟩ := mem_signalsBelow B k k.ncpu e0 he0
      exact Or.inr (hb _ h1 h2)
  · unfold mp_startthem_step
    cases hpc : s.pc with
    | loop c => simp only; split_ifs <;> rfl
    | wait c => simp only; split_ifs <;> rfl
    | done => rfl

/-- Witness of C16: the state of the test run after four steps, in which descriptor 0 has been
signalled and has acknowledged, and the next step signals descriptor 2. -/
theorem mp_startthem_sequential_witness :
    ((acked_step bootParams0)^[4] (mp_startthem_init bootParams0 imageA kernelA)).pc = Pc.loop 2 ∧
    (∀ ev, (mp_startthem_step bootParams0
        ((acked_step bootParams0)^[4] (mp_startthem_init bootParams0 imageA kernelA))).sent =
        ((acked_step bootParams0)^[4] (mp_startthem_init bootParams0 imageA kernelA)).sent ++ [ev] →
      ∀ e0, e0 ∈ ((acked_step bootParams0)^[4]
          (mp_startthem_init bootParams0 imageA kernelA)).sent →
        (((acked_step bootParams0)^[4]
          (mp_startthem_init bootParams0 imageA kernelA)).k.cpus e0.idx).booted ≠ 0) :=
  ⟨by decide,
   (mp_startthem_sequential bootParams0 imageA kernelA _
    (reachable_acked bootParams0 imageA kernelA 4)).1⟩

/-- C17: after a successful `mp_detect`, the port accesses of `mp_init` are: none while the
entries are walked; then, when `imcrp` of the floating pointer record is non-zero, exactly the
write of `0x70` to port `0x22`, the read of a byte `v` from port `0x23` and the write of
`v | 0x01` to port `0x23`, and none when `imcrp` is zero.  Every bit of `v | 0x01` other than
bit 0 is the bit of `v`. -/
theorem mp_init_port_trace (L : MpLayout) (dev : List PortOp → Nat → Nat) (m : Mem)
    (k0 k : Kernel) (hdet : (mp_detect L m k0).1 = 0) (h : mp_init L dev m k0 = some k) :
    (∀ q s, mp_parse L m (tableAddr L m + tableLen L m) (tableAddr L m + L.sizeofMpctb)
        (afterDetect L m k0) = some (q, s) → s.ports = k0.ports) ∧
    k.ports = k0.ports ++
      (if byteAt m (mp_search L m + L.imcrpOff) ≠ 0 then
        [PortOp.outb 0x22 0x70,
         PortOp.inb 0x23 (dev (k0.ports ++ [PortOp.outb 0x22 0x70]) 0x23 % 256),
         PortOp.outb 0x23 (dev (k0.ports ++ [PortOp.outb 0x22 0x70]) 0x23 % 256 ||| 0x01)]
      else []) ∧
    (∀ i, 1 ≤ i →
      (dev (k0.ports ++ [PortOp.outb 0x22 0x70]) 0x23 % 256 ||| 0x01).testBit i =
        (dev (k0.ports ++ [PortOp.outb 0x22 0x70]) 0x23 % 256).testBit i) := by
  have hpres : ∀ q s, mp_parse L m (tableAddr L m + tableLen L m)
      (tableAddr L m + L.sizeofMpctb) (afterDetect L m k0) = some (q, s) →
      s.ports = k0.ports ∧ s.mp = mp_search L m := fun q s hqs =>
    mp_parse_loop_ports L m _ _ _ q _ s hqs
  refine ⟨fun q s hqs => (hpres q s hqs).1, ?_, ?_⟩
  · rw [mp_init_of_accept L dev m k0 hdet] at h
    cases hpar : mp_parse L m (tableAddr L m + tableLen L m) (tableAddr L m + L.sizeofMpctb)
        (afterDetect L m k0) with
    | none => rw [hpar] at h; simp at h
    | some r =>
      obtain ⟨q, s⟩ := r
      rw [hpar] at h
      simp only [Option.map_some', Option.some.injEq] at h
      obtain ⟨h1, h2⟩ := hpres q s hpar
      rw [← h]
      unfold mp_imcr
      rw [h2]
      split_ifs <;> simp [h1]
  · intro i hi
    have h1 : Nat.testBit 1 i = false := by
      cases i with
      | zero => omega
      | succ i => simp [Nat.testBit_succ]
    rw [Nat.testBit_or, h1, Bool.or_false]

/-- Witness of C17: with `imcrp = 1` and a device that answers `0x80`, the port accesses of
`mp_init` on `imageA` are the three of the sequence, the last one writing `0x81`; with
`imcrp = 0` there is none. -/
theorem mp_init_port_trace_witness :
    (∃ k, mp_init stdLayout dev0 imageA kernel0 = some k ∧
      k.ports = [PortOp.outb 0x22 0x70, PortOp.inb 0x23 0x80, PortOp.outb 0x23 0x81]) ∧
    (∃ k, mp_init stdLayout dev0 imageNoImcr kernel0 = some k ∧ k.ports = []) := by
  obtain ⟨k, hk⟩ := Option.isSome_iff_exists.1
    (show (mp_init stdLayout dev0 imageA kernel0).isSome = true by decide)
  obtain ⟨k', hk'⟩ := Option.isSome_iff_exists.1
    (show (mp_init stdLayout dev0 imageNoImcr kernel0).isSome = true by decide)
  exact ⟨⟨k, hk, (mp_init_port_trace stdLayout dev0 imageA kernel0 k (by decide) hk).2.1.trans
      (by decide)⟩,
    ⟨k', hk', (mp_init_port_trace stdLayout dev0 imageNoImcr kernel0 k' (by decide) hk').2.1.trans
      (by decide)⟩⟩

/-- C18, the code at the failing input: the BIOS data area holds the EBDA segment `0x9FC0` and
a floating pointer record lies at the start of the EBDA, at `0x9FC0 * 16`; `mp_search` scans
the 1 KiB that starts at address `0x9FC0` instead, finds nothing there nor in the BIOS ROM, and
returns `0`. -/
theorem mp_search_ebda_failing :
    bdaWord imageEbda 0x0F 0x0E = 0x9FC0 ∧ validMp stdLayout imageEbda (0x9FC0 * 16) ∧
    mp_scan stdLayout imageEbda (0x9FC0 * 16) 1024 = 0x9FC0 * 16 ∧
    mp_scan stdLayout imageEbda 0x9FC0 1024 = 0 ∧ mp_search stdLayout imageEbda = 0 := by
  have h1 : mp_scan stdLayout imageEbda 0x9FC0 1024 = 0 := by decide
  have h2 : mp_scan stdLayout imageEbda 0xF0000 0x10000 = 0 :=
    mp_scan_none stdLayout imageEbda 0xF0000 0x10000 (fun off _ => imageEbda_rom off)
  have h3 : bdaWord imageEbda 0x0F 0x0E = 0x9FC0 := by decide
  refine ⟨h3, by decide, by decide, h1, ?_⟩
  unfold mp_search
  simp [h3, h1, h2]

end Mp
